import Mathlib

/-!
# deepin-system-monitor: `src/utils.cpp`

A shallow embedding of the sampling helpers of `namespace Utils` and the properties
settled about them.

Conventions of the embedding.

* `std::string`, `QString` and file contents are lists of characters; the UTF-8 conversions
  `QString::fromStdString` and `QString::toStdString` are the identity on them.
* `unsigned long long` values are natural numbers, every operation reduced modulo `2 ^ 64`.
* `double` values are `CDouble`: a finite value is the rational number it stands for, next to
  the IEEE-754 values `+inf`, `-inf` and `NaN`. Every conversion and operation rounds its exact
  result to the nearest binary64 number, ties to even (`CDouble.round`).
* Everything the code reads from its environment (the content of a file under `/proc`, the
  content of a descriptor file, the system locale, the configured number of processors) is an
  explicit argument.
-/

namespace Utils

/-! ## Machine arithmetic -/

/-- Number of values of an `unsigned long long`. -/
def ULL : Nat := 2 ^ 64

/-- Addition of two `unsigned long long` values. -/
def addULL (a b : Nat) : Nat := (a + b) % ULL

/-- Subtraction of two `unsigned long long` values: the difference wraps around modulo `2 ^ 64`. -/
def subULL (a b : Nat) : Nat := (a % ULL + (ULL - b % ULL)) % ULL

/-- Values of the C type `double` (IEEE-754 binary64). A finite value is the rational number
it stands for; the two zeros are identified (the only divisor the code forms is converted from
an unsigned integer, so it is never `-0.0`). -/
inductive CDouble where
  | fin (q : ℚ)
  | pinf
  | ninf
  | nan
  deriving DecidableEq

/-- Rounding of a rational number to the nearest integer, a tie going to the even integer. -/
def roundHalfEven (x : ℚ) : ℤ :=
  if x - ⌊x⌋ < 1 / 2 then ⌊x⌋
  else if 1 / 2 < x - ⌊x⌋ then ⌊x⌋ + 1
  else if ⌊x⌋ % 2 = 0 then ⌊x⌋ else ⌊x⌋ + 1

/-- The binary exponent that fixes the spacing of the binary64 numbers around `x`: the `e` with
`2 ^ e ≤ |x| < 2 ^ (e + 1)`, and `-1022` for the subnormal numbers and zero. -/
def binade (x : ℚ) : ℤ := max (Int.log 2 |x|) (-1022)

/-- The multiple of `2 ^ (binade x - 52)` nearest to `x`, ties to even: the binary64 number
nearest to `x` when the exponent range is not exceeded. -/
def roundQ (x : ℚ) : ℚ :=
  (roundHalfEven (x / 2 ^ (binade x - 52)) : ℚ) * 2 ^ (binade x - 52)

namespace CDouble

/-- Rounding of an exact result to `double`, in the default rounding mode (to nearest, ties to
even): an infinity when the rounded value is beyond the largest finite number. -/
def round (x : ℚ) : CDouble :=
  if 2 ^ 1024 ≤ roundQ x then pinf
  else if roundQ x ≤ -2 ^ 1024 then ninf
  else fin (roundQ x)

/-- Conversion of an `unsigned long long` to `double`. -/
def ofULL (n : Nat) : CDouble := round (n : ℚ)

/-- Conversion of a `long` to `double`. -/
def ofLong (n : Int) : CDouble := round (n : ℚ)

/-- IEEE-754 division: the exact quotient, rounded. A finite non-zero value divided by zero is
an infinity, `0 / 0` is `NaN`. -/
def div (x y : CDouble) : CDouble :=
  match x with
  | nan => nan
  | fin a =>
    match y with
    | nan => nan
    | fin b =>
      if b = 0 then (if a = 0 then nan else if 0 < a then pinf else ninf) else round (a / b)
    | pinf => fin 0
    | ninf => fin 0
  | pinf =>
    match y with
    | fin b => if 0 ≤ b then pinf else ninf
    | _ => nan
  | ninf =>
    match y with
    | fin b => if 0 ≤ b then ninf else pinf
    | _ => nan

/-- IEEE-754 multiplication: the exact product, rounded. An infinity times zero is `NaN`. -/
def mul (x y : CDouble) : CDouble :=
  match x with
  | nan => nan
  | fin a =>
    match y with
    | nan => nan
    | fin b => round (a * b)
    | pinf => if a = 0 then nan else if 0 < a then pinf else ninf
    | ninf => if a = 0 then nan else if 0 < a then ninf else pinf
  | pinf =>
    match y with
    | nan => nan
    | fin b => if b = 0 then nan else if 0 < b then pinf else ninf
    | pinf => pinf
    | ninf => ninf
  | ninf =>
    match y with
    | nan => nan
    | fin b => if b = 0 then nan else if 0 < b then ninf else pinf
    | pinf => ninf
    | ninf => pinf

end CDouble

/-! ## `sscanf` on the first line of `/proc/stat` -/

/-- The C function `isspace` in the "C" locale. -/
def isspace (c : Char) : Bool :=
  c = ' ' || c = '\t' || c = '\n' || c = '\x0b' || c = '\x0c' || c = '\r'

/-- The C function `isdigit`. -/
def isdigit (c : Char) : Bool := decide (48 ≤ c.toNat) && decide (c.toNat ≤ 57)

/-- Value of a decimal digit character. -/
def digitValue (c : Char) : Nat := c.toNat - 48

/-- White space skipped in front of a numeric conversion. -/
def skipSpace : List Char → List Char
  | [] => []
  | c :: cs => if isspace c then skipSpace cs else c :: cs

/-- Digits of one numeric conversion: reads decimal digits while the field width allows it.
The accumulator is `none` as long as no digit has been read. -/
def scanDigits : Nat → List Char → Option Nat → Option Nat × List Char
  | 0, s, acc => (acc, s)
  | _ + 1, [], acc => (acc, [])
  | w + 1, c :: cs, acc =>
    if isdigit c then scanDigits w cs (some (acc.getD 0 * 10 + digitValue c)) else (acc, c :: cs)

/-- The conversion `%<width>llu` of `sscanf`: skips white space, accepts one optional sign
(which counts in the field width), then reads at most the remaining width of decimal digits.
Fails, with `none`, when no digit is found. The value is the one `strtoull` gives. -/
def scanULL (width : Nat) (s : List Char) : Option (Nat × List Char) :=
  match skipSpace s with
  | [] => none
  | c :: cs =>
    if c = '-' then
      match scanDigits (width - 1) cs none with
      | (some v, rest) => some ((ULL - v % ULL) % ULL, rest)
      | (none, _) => none
    else if c = '+' then
      match scanDigits (width - 1) cs none with
      | (some v, rest) => some (v % ULL, rest)
      | (none, _) => none
    else
      match scanDigits width (c :: cs) none with
      | (some v, rest) => some (v % ULL, rest)
      | (none, _) => none

/-- The run of `n` conversions `%16llu` separated by white space in the format of
`getTotalCpuTime`: the values converted, in order, up to the first conversion that fails.
The white space of the format is the white space each conversion skips anyway. -/
def scanFields : Nat → List Char → List Nat
  | 0, _ => []
  | n + 1, s =>
    match scanULL 16 s with
    | none => []
    | some (v, rest) => v :: scanFields n rest

/-- Ordinary characters of a `sscanf` format: each has to be the next input character. -/
def matchLiteral : List Char → List Char → Option (List Char)
  | [], s => some s
  | _ :: _, [] => none
  | p :: ps, c :: cs => if p = c then matchLiteral ps cs else none

/-- The call `fgets(buffer, n, file)` on a file just opened: at most `n - 1` characters, up to
and including the first newline. The empty result is the `NULL` return at end of file. -/
def fgets (n : Nat) (content : List Char) : List Char :=
  match n - 1, content with
  | 0, _ => []
  | _ + 1, [] => []
  | k + 1, c :: cs => if c = '\n' then [c] else c :: fgets (k + 1) cs

/-- The C string held in a buffer: the characters in front of the first NUL. -/
def cString : List Char → List Char
  | [] => []
  | c :: cs => if c = '\x00' then [] else c :: cString cs

/-- Embedding of `Utils::getTotalCpuTime`. `stat` is the content of `/proc/stat`, `none` when
the file cannot be opened. The ten counters start at `0` and keep that value when their
conversion is not reached; the sum leaves out `guest` and `guestnice`. -/
def getTotalCpuTime (stat : Option (List Char)) : Nat :=
  match stat with
  | none => 0
  | some content =>
    match fgets 1023 content with
    | [] => 0
    | buffer =>
      let f : List Nat :=
        match matchLiteral ['c', 'p', 'u'] (cString buffer) with
        | none => []
        | some rest => scanFields 10 rest
      let user := f.getD 0 0
      let nice := f.getD 1 0
      let system := f.getD 2 0
      let idle := f.getD 3 0
      let iowait := f.getD 4 0
      let irq := f.getD 5 0
      let softirq := f.getD 6 0
      let steal := f.getD 7 0
      addULL (addULL (addULL (addULL (addULL (addULL (addULL user nice) system) idle) iowait) irq)
        softirq) steal

/-! ## CPU percentage of a process -/

/-- The fields of the procps record `proc_t` that `calculateCPUPercentage` reads; both are
`unsigned long long`. -/
structure proc_t where
  utime : Nat
  stime : Nat

/-- Embedding of `Utils::calculateCPUPercentage`. `stat` is the content of `/proc/stat` at the
time of the call and `nproc` the value of `sysconf(_SC_NPROCESSORS_CONF)`. -/
def calculateCPUPercentage (stat : Option (List Char)) (nproc : Int)
    (before after : proc_t) (cpuTime : Nat) : CDouble :=
  let cpuTimeA : CDouble := CDouble.ofULL (subULL (getTotalCpuTime stat) cpuTime)
  let processcpuTime : Nat :=
    subULL (addULL after.utime after.stime) (addULL before.utime before.stime)
  (((CDouble.ofULL processcpuTime).div cpuTimeA).mul (CDouble.fin 100)).mul (CDouble.ofLong nproc)

/-! ## Process name from the command line -/

/-- The algorithm `std::replace` on a string. -/
def replace (s : List Char) (old new : Char) : List Char :=
  s.map fun ch => if ch = old then new else ch

/-- The call `std::getline(fs, temp)` on a stream just opened: the characters in front of the
first newline. -/
def getlineFirst : List Char → List Char
  | [] => []
  | c :: cs => if c = '\n' then [] else c :: getlineFirst cs

/-- Embedding of `Utils::getProcessCmdline`. `cmdlineFile` is the content of
`/proc/<pid>/cmdline`, `none` when the file cannot be opened: the stream then fails without
throwing (no exception mask is set) and `temp` stays empty. -/
def getProcessCmdline (cmdlineFile : Option (List Char)) : List Char :=
  let temp : List Char :=
    match cmdlineFile with
    | none => []
    | some content => getlineFirst content
  let temp := replace temp '\x00' ' '
  if temp.length < 1 then [] else temp

/-- The loop of `Utils::explode` over the characters still to read, with its two variables
`buff` and `v`. -/
def explodeLoop (c : Char) : List Char → List Char → List (List Char) → List (List Char)
  | [], buff, v => if buff ≠ [] then v ++ [buff] else v
  | n :: s, buff, v =>
    if n ≠ c then explodeLoop c s (buff ++ [n]) v
    else if n = c ∧ buff ≠ [] then explodeLoop c s [] (v ++ [buff])
    else explodeLoop c s buff v

/-- Embedding of `Utils::explode`. -/
def explode (s : List Char) (c : Char) : List (List Char) := explodeLoop c s [] []

/-- The Qt call `QFileInfo(path).fileName()` on Linux: what follows the last `/` of the path. -/
def fileName (path : List Char) : List Char :=
  path.foldl (fun acc ch => if ch = '/' then [] else acc ++ [ch]) []

/-- The static set `nameMap` of `getProcessNameFromCmdLine`. -/
def nameMap : List (List Char) :=
  ["python".toList, "python3".toList, "ruby".toList, "php".toList, "perl".toList]

/-- Embedding of `Utils::getProcessNameFromCmdLine`, as a function of the content of
`/proc/<pid>/cmdline`. The result `none` stands for undefined behaviour: `args[0]` or `args[1]`
is read past the end of the vector `args`. -/
def getProcessNameFromCmdLine (cmdlineFile : Option (List Char)) : Option (List Char) :=
  let cmdline := getProcessCmdline cmdlineFile
  if cmdline.length < 1 then some []
  else
    let cmdline := replace cmdline '\\' '/'
    let args := explode cmdline ' '
    match args[0]? with
    | none => none
    | some arg0 =>
      let name := fileName arg0
      if name ∈ nameMap then
        match args[1]? with
        | none => none
        | some arg1 => some (fileName arg1)
      else some name

/-! ## Display name from a descriptor file -/

/-- The Qt call `QString::toLower`, on the ASCII letters; a character outside ASCII is left as
it is. For the comparison with `deepin-wm` this is exact: no character outside ASCII is mapped
to one of its letters. -/
def toLower (s : List Char) : List Char := s.map Char.toLower

/-- The Qt call `s.startsWith(p)`. -/
def startsWith : List Char → List Char → Bool
  | _, [] => true
  | [], _ :: _ => false
  | c :: cs, p :: ps => c = p && startsWith cs ps

/-- The lines that the loop `while(!in.eof()) { std::getline(in, line); ... }` reads from a
stream opened on a file with the given content: the pieces between newlines, the piece after
the last newline included (it is empty when the file ends in a newline or is empty). -/
def readLines : List Char → List (List Char)
  | [] => [[]]
  | c :: cs =>
    if c = '\n' then [] :: readLines cs
    else
      match readLines cs with
      | [] => [[c]]
      | l :: ls => (c :: l) :: ls

/-- The string `QString("Name[%1]=").arg(QLocale::system().name())`. -/
def localNameFlag (locale : List Char) : List Char := "Name[".toList ++ locale ++ "]=".toList

/-- The string `QString("GenericName[%1]=").arg(QLocale::system().name())`. -/
def genericNameFlag (locale : List Char) : List Char :=
  "GenericName[".toList ++ locale ++ "]=".toList

/-- The string `nameFlag`. -/
def nameFlag : List Char := "Name=".toList

/-- The loop of `Utils::getDisplayNameFromName` over the lines still to read, with its variable
`displayName`: `break` returns, `continue` goes on with the next line. -/
def displayNameLoop (locale : List Char) : List (List Char) → List Char → List Char
  | [], displayName => displayName
  | lineContent :: more, displayName =>
    if startsWith lineContent (localNameFlag locale) then
      lineContent.drop (localNameFlag locale).length
    else if startsWith lineContent (genericNameFlag locale) then
      lineContent.drop (genericNameFlag locale).length
    else if startsWith lineContent nameFlag then
      displayNameLoop locale more (lineContent.drop nameFlag.length)
    else
      displayNameLoop locale more displayName

/-- Embedding of `Utils::getDisplayNameFromName`. `locale` is `QLocale::system().name()` and
`descriptor` the content of the file named `desktopFile`, `none` when it cannot be opened. In
that case the stream never reaches end of file and every `getline` fails, so the loop does not
terminate: the result `none` stands for it. -/
def getDisplayNameFromName (locale procName desktopFile : List Char)
    (descriptor : Option (List Char)) : Option (List Char) :=
  if toLower procName = "deepin-wm".toList then some "深度窗口管理器".toList
  else if desktopFile.length = 0 then some procName
  else
    match descriptor with
    | none => none
    | some content => some (displayNameLoop locale (readLines content) procName)

/-! ## Descriptor file of a process -/

/-- The Qt call `s.contains(sub)`: the string `sub` occurs somewhere in `s`. -/
def contains : List Char → List Char → Bool
  | [], sub => startsWith [] sub
  | c :: cs, sub => startsWith (c :: cs) sub || contains cs sub

/-- The Qt call `QFileInfo::suffix()`: what follows the last `.` of the file name, the empty
string when the name has no `.` (and for the null `QFileInfo`). -/
def suffix (name : List Char) : List Char :=
  (name.foldl (fun acc ch => if ch = '.' then some [] else acc.map fun s => s ++ [ch])
    (none : Option (List Char))).getD []

/-- One entry that a `QDirIterator` yields, with its `fileName()` and its `filePath()`. -/
structure DirEntry where
  fileName : List Char
  filePath : List Char
  deriving DecidableEq

/-- The call `dir.fileName()`: the name of the current entry, empty as long as `next()` has not
been called. -/
def currentFileName : Option DirEntry → List Char
  | none => []
  | some e => e.fileName

/-- The call `dir.filePath()`: the path of the current entry, empty as long as `next()` has not
been called. -/
def currentFilePath : Option DirEntry → List Char
  | none => []
  | some e => e.filePath

/-- One of the two `while(dir.hasNext())` loops of `Utils::getDesktopFileFromName`, on the state
of the iterator `dir`: its current entry and the entries still to come. `hasNext()` holds as
long as an entry is still to come; the body looks at the current entry and only then calls
`next()`. The result is the value of `desktopFile` (empty when the loop ends without `break`)
and the state in which the loop leaves the iterator. -/
def desktopLoop (pattern : List Char) :
    Option DirEntry → List DirEntry → List Char × Option DirEntry × List DirEntry
  | current, [] => ([], current, [])
  | current, e :: pending =>
    if suffix (currentFileName current) = "desktop".toList
        ∧ contains (toLower (currentFileName current)) pattern = true then
      (currentFilePath current, current, e :: pending)
    else desktopLoop pattern (some e) pending

/-- Embedding of `Utils::getDesktopFileFromName`. `GUI_BLACKLIST` is the constant of that name
(declared outside `utils.cpp`) and `listing` the sequence of entries that the iterator over
`/usr/share/applications` yields. Both loops run on the same iterator `dir`. The function
`toLower` lower-cases the ASCII letters. -/
def getDesktopFileFromName (GUI_BLACKLIST : List (List Char)) (listing : List DirEntry)
    (procName : List Char) : List Char :=
  let procname := toLower procName
  if procname ∈ GUI_BLACKLIST then []
  else
    match desktopLoop (procname ++ ".desktop".toList) none listing with
    | (desktopFile, current, pending) =>
      if desktopFile.length = 0 then (desktopLoop procname current pending).1
      else desktopFile

/-! ## Icon of a process -/

/-- An icon, as the expression that builds it: `QIcon::fromTheme(name)`,
`QIcon::fromTheme(name, fallback)` or `QIcon(fileName)`. What the icon theme makes of it is
outside the program. -/
inductive QIcon where
  | fromTheme (name : List Char)
  | fromThemeOr (name : List Char) (fallback : QIcon)
  | fromFile (fileName : List Char)
  deriving DecidableEq

/-- A pixmap, as the expression that builds it: the null pixmap, or `icon.pixmap(w, h)`. -/
inductive QPixmap where
  | null
  | ofIcon (icon : QIcon) (w h : Int)
  deriving DecidableEq

/-- The call `icon.pixmap(w, h)`. -/
def QIcon.pixmap (icon : QIcon) (w h : Int) : QPixmap := QPixmap.ofIcon icon w h

/-- A `QMap<QString, QPixmap>`, as the list of its entries, at most one for a key. -/
structure QMap where
  entries : List (List Char × QPixmap)
  deriving DecidableEq

/-- The entry of a key in a list of entries. -/
def findEntry (key : List Char) : List (List Char × QPixmap) → Option QPixmap
  | [] => none
  | e :: rest => if e.1 = key then some e.2 else findEntry key rest

/-- A list of entries with the entry of a key set to a value. -/
def setEntry (key : List Char) (v : QPixmap) :
    List (List Char × QPixmap) → List (List Char × QPixmap)
  | [] => [(key, v)]
  | e :: rest => if e.1 = key then (key, v) :: rest else e :: setEntry key v rest

/-- The call `map.contains(key)`. -/
def QMap.contains (m : QMap) (key : List Char) : Bool := (findEntry key m.entries).isSome

/-- The call `map.value(key)`: the value of the key, the null pixmap when it has none. -/
def QMap.value (m : QMap) (key : List Char) : QPixmap := (findEntry key m.entries).getD QPixmap.null

/-- The assignment `map[key] = v`. -/
def QMap.assign (m : QMap) (key : List Char) (v : QPixmap) : QMap := ⟨setEntry key v m.entries⟩

/-- The assignment `(*processIconMapCache)[procName] = pixmap` under its test
`processIconMapCache != nullptr`. -/
def storeIcon (processIconMapCache : Option QMap) (procName : List Char) (pixmap : QPixmap) :
    Option QMap :=
  match processIconMapCache with
  | none => none
  | some cache => some (cache.assign procName pixmap)

/-- The loop of `Utils::getProcessIconFromName` over the lines still to read, with its variable
`icon`: an `Icon=` value with a `/` in it is kept as a file name and the loop goes on, the
first `Icon=` value without `/` is looked up in the theme and ends the loop. -/
def iconLoop (defaultExecutableIcon : QIcon) : List (List Char) → QIcon → QIcon
  | [], icon => icon
  | line :: more, icon =>
    if startsWith line "Icon=".toList then
      let iconName := line.drop 5
      if contains iconName "/".toList then
        iconLoop defaultExecutableIcon more (QIcon.fromFile iconName)
      else QIcon.fromThemeOr iconName defaultExecutableIcon
    else iconLoop defaultExecutableIcon more icon

/-- What a call of `getProcessIconFromName` that returns leaves behind: the pixmap returned,
the cache after the call, and the descriptor files the call opened. -/
structure IconCall where
  pixmap : QPixmap
  cache : Option QMap
  opened : List (List Char)
  deriving DecidableEq

/-- Embedding of `Utils::getProcessIconFromName`. `descriptor` is the content of the file
named `desktopFile`, `none` when it cannot be opened, and `processIconMapCache` is `none` for
the null pointer. The result `none` stands for a call that does not return: on a stream that
could not be opened `in.eof()` never holds and every `getline` fails, so the loop does not
terminate. -/
def getProcessIconFromName (procName desktopFile : List Char) (descriptor : Option (List Char))
    (processIconMapCache : Option QMap) (iconSize : Int) : Option IconCall :=
  let cached : Option QPixmap :=
    match processIconMapCache with
    | none => none
    | some cache => if cache.contains procName then some (cache.value procName) else none
  match cached with
  | some pixmap => some ⟨pixmap, processIconMapCache, []⟩
  | none =>
    let defaultExecutableIcon := QIcon.fromTheme "application-x-executable".toList
    if desktopFile.length = 0 then
      let pixmap := defaultExecutableIcon.pixmap iconSize iconSize
      some ⟨pixmap, storeIcon processIconMapCache procName pixmap, []⟩
    else
      match descriptor with
      | none => none
      | some content =>
        let icon := iconLoop defaultExecutableIcon (readLines content) defaultExecutableIcon
        let pixmap := icon.pixmap iconSize iconSize
        some ⟨pixmap, storeIcon processIconMapCache procName pixmap, [desktopFile]⟩

/-! ## I/O counters of a process -/

/-- The seven counters of the record `ProcPidIO` (declared outside `utils.cpp`), each an
`unsigned long`. -/
structure ProcPidIO where
  rchar : Nat
  wchar : Nat
  syscr : Nat
  syscw : Nat
  read_bytes : Nat
  write_bytes : Nat
  cancelled_write_bytes : Nat
  deriving DecidableEq

/-- The conversion `%lu` of `sscanf`, with no field width: skips white space, accepts one
optional sign, then reads all the decimal digits that follow. Fails, with `none`, when no digit
is found. The value is the one `strtoul` gives: `ULONG_MAX` when the digits overflow 64 bits,
the negation modulo `2 ^ 64` after a minus sign. -/
def scanUL (s : List Char) : Option Nat :=
  match skipSpace s with
  | [] => none
  | c :: cs =>
    if c = '-' then
      match scanDigits cs.length cs none with
      | (some v, _) => some (if v < ULL then (ULL - v) % ULL else ULL - 1)
      | (none, _) => none
    else if c = '+' then
      match scanDigits cs.length cs none with
      | (some v, _) => some (if v < ULL then v else ULL - 1)
      | (none, _) => none
    else
      match scanDigits (cs.length + 1) (c :: cs) none with
      | (some v, _) => some (if v < ULL then v else ULL - 1)
      | (none, _) => none

/-- The test `sscanf(s.c_str(), "<label> %lu", &t) == 1` with the value it leaves in `t`: the
characters of the label have to be the first characters of the line, then comes the
conversion. -/
def scanLabelled (label s : List Char) : Option Nat :=
  match matchLiteral label (cString s) with
  | none => none
  | some rest => scanUL rest

/-- The body of the loop of `getProcPidIO`, after `getline`: the chain of `sscanf` tests on
the line `s`. -/
def scanIoLine (s : List Char) (io : ProcPidIO) : ProcPidIO :=
  match scanLabelled "rchar:".toList s with
  | some t => { io with rchar := t }
  | none =>
  match scanLabelled "wchar:".toList s with
  | some t => { io with wchar := t }
  | none =>
  match scanLabelled "syscr:".toList s with
  | some t => { io with syscr := t }
  | none =>
  match scanLabelled "syscw:".toList s with
  | some t => { io with syscw := t }
  | none =>
  match scanLabelled "read_bytes:".toList s with
  | some t => { io with read_bytes := t }
  | none =>
  match scanLabelled "write_bytes:".toList s with
  | some t => { io with write_bytes := t }
  | none =>
  match scanLabelled "cancelled_write_bytes:".toList s with
  | some t => { io with cancelled_write_bytes := t }
  | none => io

/-- Embedding of `Utils::getProcPidIO`. `ioFile` is the content of `/proc/<pid>/io`, `none`
when the file cannot be opened; `io` is the record passed by reference, returned with the
result. -/
def getProcPidIO (ioFile : Option (List Char)) (io : ProcPidIO) : Bool × ProcPidIO :=
  match ioFile with
  | none => (false, io)
  | some content => (true, (readLines content).foldl (fun acc s => scanIoLine s acc) io)

/-! ## Descriptions of well-formed inputs -/

/-- File content made of the given lines, a newline between two consecutive lines. -/
def joinLines : List (List Char) → List Char
  | [] => []
  | [l] => l
  | l :: l2 :: ls => l ++ '\n' :: joinLines (l2 :: ls)

/-- A line is name-bearing for a locale when it starts with one of the three keys the display
name is taken from. -/
def nameBearing (locale line : List Char) : Bool :=
  startsWith line (localNameFlag locale) || startsWith line (genericNameFlag locale)
    || startsWith line nameFlag

/-- A line contains no newline. -/
def oneLine (l : List Char) : Prop := '\n' ∉ l

instance (l : List Char) : Decidable (oneLine l) := by
  unfold oneLine
  infer_instance

/-- Value of a string of decimal digits. -/
def decimalValue (f : List Char) : Nat := f.foldl (fun acc ch => acc * 10 + digitValue ch) 0

/-- A counter field of at most `w` characters: a non-empty string of decimal digits. -/
def counterField (w : Nat) (f : List Char) : Prop :=
  f ≠ [] ∧ f.length ≤ w ∧ ∀ ch ∈ f, isdigit ch = true

instance (w : Nat) (f : List Char) : Decidable (counterField w f) := by
  unfold counterField
  infer_instance

/-- The counter line: `cpu` and then every field with its spaces in front of it. A field is
given as the number of spaces that precede it and its characters. -/
def counterLine (fields : List (Nat × List Char)) : List Char :=
  "cpu".toList ++ (fields.map fun p => List.replicate p.1 ' ' ++ p.2).flatten

/-- Modelled from the words of the claim on `explode`: the pieces of `s` between the
occurrences of `c`, empty pieces included. -/
def splitRuns (c : Char) : List Char → List (List Char)
  | [] => [[]]
  | ch :: s =>
    if ch = c then [] :: splitRuns c s
    else
      match splitRuns c s with
      | [] => [[ch]]
      | r :: rs => (ch :: r) :: rs

/-- Modelled from the words of the claim on `explode`: the maximal non-empty runs of characters
of `s` different from `c`, in order. -/
def maximalRuns (s : List Char) (c : Char) : List (List Char) :=
  (splitRuns c s).filter fun r => decide (r ≠ [])

/-- The seven fields of the file `/proc/<pid>/io`. -/
inductive IoField where
  | rchar
  | wchar
  | syscr
  | syscw
  | read_bytes
  | write_bytes
  | cancelled_write_bytes
  deriving DecidableEq

/-- The seven fields, in the order of the tests of `getProcPidIO`. -/
def IoField.all : List IoField :=
  [.rchar, .wchar, .syscr, .syscw, .read_bytes, .write_bytes, .cancelled_write_bytes]

/-- The name of a field followed by a colon, as a line of the file starts. -/
def IoField.label : IoField → List Char
  | .rchar => "rchar:".toList
  | .wchar => "wchar:".toList
  | .syscr => "syscr:".toList
  | .syscw => "syscw:".toList
  | .read_bytes => "read_bytes:".toList
  | .write_bytes => "write_bytes:".toList
  | .cancelled_write_bytes => "cancelled_write_bytes:".toList

/-- The counter of a field in a record. -/
def fieldOf (io : ProcPidIO) : IoField → Nat
  | .rchar => io.rchar
  | .wchar => io.wchar
  | .syscr => io.syscr
  | .syscw => io.syscw
  | .read_bytes => io.read_bytes
  | .write_bytes => io.write_bytes
  | .cancelled_write_bytes => io.cancelled_write_bytes

/-- A line of an io file: a line `<field>: <n>` with `n` given by its decimal digits, or
another line. -/
inductive IoLine where
  | counter (f : IoField) (digits : List Char)
  | other (text : List Char)
  deriving DecidableEq

/-- The text of a line. -/
def IoLine.text : IoLine → List Char
  | .counter f digits => f.label ++ ' ' :: digits
  | .other text => text

/-- A line `<field>: <n>` is well formed when `n` is a non-empty string of decimal digits with
a value below `2 ^ 64`; another line when it contains no newline and starts with the label of
none of the seven fields. -/
def IoLine.wellFormed : IoLine → Prop
  | .counter _ digits => digits ≠ [] ∧ (∀ ch ∈ digits, isdigit ch = true) ∧ decimalValue digits < ULL
  | .other text => oneLine text ∧ ∀ f ∈ IoField.all, startsWith text f.label = false

instance (l : IoLine) : Decidable l.wellFormed := by
  cases l <;> unfold IoLine.wellFormed <;> infer_instance

/-- The value that a line gives to a field: the number of a line `<field>: <n>` for that very
field, nothing for any other line. -/
def IoLine.valueFor : IoLine → IoField → Option Nat
  | .counter f digits, g => if f = g then some (decimalValue digits) else none
  | .other _, _ => none

/-- The value a field ends with: the value of the last line `<field>: <n>` of that field, the
initial value when there is none. -/
def lastValue (f : IoField) : List IoLine → Nat → Nat
  | [], init => init
  | l :: more, init => lastValue f more ((l.valueFor f).getD init)

/-! ## Arithmetic lemmas -/

theorem ULL_pos : 0 < ULL := by decide

theorem addULL_lt (a b : Nat) : addULL a b < ULL := Nat.mod_lt _ ULL_pos

theorem subULL_of_le {a b : Nat} (hba : b ≤ a) (ha : a < ULL) : subULL a b = a - b := by
  have hb : b < ULL := lt_of_le_of_lt hba ha
  unfold subULL
  rw [Nat.mod_eq_of_lt ha, Nat.mod_eq_of_lt hb]
  have h : a + (ULL - b) = (a - b) + ULL := by omega
  rw [h, Nat.add_mod_right, Nat.mod_eq_of_lt (by omega)]

theorem getTotalCpuTime_lt (stat : Option (List Char)) : getTotalCpuTime stat < ULL := by
  unfold getTotalCpuTime
  split
  · exact ULL_pos
  · split
    · exact ULL_pos
    · exact addULL_lt _ _

/-- The total of the line `cpu  5100 0 0 0 0 0 0 0 0 0`. -/
theorem getTotalCpuTime_sample :
    getTotalCpuTime (some "cpu  5100 0 0 0 0 0 0 0 0 0\n".toList) = 5100 := by decide

/-! ## Scanning lemmas -/

theorem isdigit_facts {c : Char} (hd : isdigit c = true) :
    isspace c = false ∧ c ≠ '-' ∧ c ≠ '+' ∧ c ≠ '\n' ∧ c ≠ '\x00' := by
  have h1 : 48 ≤ c.toNat := by
    simp only [isdigit, Bool.and_eq_true, decide_eq_true_eq] at hd
    exact hd.1
  have hne : ∀ d : Char, d.toNat < 48 → c ≠ d := by
    intro d hlt hcd
    rw [hcd] at h1
    omega
  refine ⟨?_, hne _ (by decide), hne _ (by decide), hne _ (by decide), hne _ (by decide)⟩
  simp only [isspace, Bool.or_eq_false_iff, decide_eq_false_iff_not]
  exact ⟨⟨⟨⟨⟨hne _ (by decide), hne _ (by decide)⟩, hne _ (by decide)⟩, hne _ (by decide)⟩,
    hne _ (by decide)⟩, hne _ (by decide)⟩

theorem scanDigits_some (t : List Char) :
    ∀ (ds : List Char) (w x : Nat), ds.length ≤ w → (∀ ch ∈ ds, isdigit ch = true) →
      scanDigits w (ds ++ ' ' :: t) (some x)
        = (some (ds.foldl (fun acc ch => acc * 10 + digitValue ch) x), ' ' :: t) := by
  intro ds
  induction ds with
  | nil =>
    intro w x _ _
    cases w with
    | zero => rfl
    | succ w => simp [scanDigits, isdigit]
  | cons d ds ih =>
    intro w x hw hd
    cases w with
    | zero => simp at hw
    | succ w =>
      have hd1 : isdigit d = true := hd d (List.mem_cons_self _ _)
      have hw1 : ds.length ≤ w := by simpa using hw
      simp only [List.cons_append, scanDigits, hd1, if_true, Option.getD_some, List.foldl_cons]
      exact ih w _ hw1 (fun ch hch => hd ch (List.mem_cons_of_mem _ hch))

theorem skipSpace_replicate (t : List Char) :
    ∀ k : Nat, skipSpace (List.replicate k ' ' ++ t) = skipSpace t := by
  intro k
  induction k with
  | zero => rfl
  | succ k ih =>
    show skipSpace (' ' :: (List.replicate k ' ' ++ t)) = skipSpace t
    rw [skipSpace, if_pos (by decide), ih]

theorem scanULL_field (k : Nat) (f t : List Char) (hf : counterField 16 f) :
    scanULL 16 (List.replicate k ' ' ++ (f ++ ' ' :: t))
      = some (decimalValue f % ULL, ' ' :: t) := by
  obtain ⟨hne, hlen, hdig⟩ := hf
  cases f with
  | nil => exact absurd rfl hne
  | cons d ds =>
    have hd1 : isdigit d = true := hdig d (List.mem_cons_self _ _)
    obtain ⟨hsp, hminus, hplus, -, -⟩ := isdigit_facts hd1
    have hw1 : ds.length ≤ 15 := by simpa using hlen
    have hs : skipSpace (List.replicate k ' ' ++ ((d :: ds) ++ ' ' :: t))
        = d :: (ds ++ ' ' :: t) := by
      rw [skipSpace_replicate]
      show skipSpace (d :: (ds ++ ' ' :: t)) = d :: (ds ++ ' ' :: t)
      rw [skipSpace, hsp]
      simp
    have hscan := scanDigits_some t ds 15 (0 * 10 + digitValue d) hw1
      (fun ch hch => hdig ch (List.mem_cons_of_mem _ hch))
    simp only [scanULL, hs, if_neg hminus, if_neg hplus, scanDigits, hd1, if_true,
      Option.getD_none, hscan, decimalValue, List.foldl_cons]

theorem scanFields_fields (t : List Char) :
    ∀ (fs : List (Nat × List Char)) (m : Nat), (∀ p ∈ fs, 0 < p.1 ∧ counterField 16 p.2) →
      scanFields (fs.length + m)
          ((fs.map fun p => List.replicate p.1 ' ' ++ p.2).flatten ++ ' ' :: t)
        = (fs.map fun p => decimalValue p.2 % ULL) ++ scanFields m (' ' :: t) := by
  intro fs
  induction fs with
  | nil => intro m _; simp
  | cons p fs ih =>
    intro m hf
    have h1 : counterField 16 p.2 := (hf p (List.mem_cons_self _ _)).2
    have h2 : ∀ g ∈ fs, 0 < g.1 ∧ counterField 16 g.2 :=
      fun g hg => hf g (List.mem_cons_of_mem _ hg)
    have hshape : ((p :: fs).map fun p => List.replicate p.1 ' ' ++ p.2).flatten ++ ' ' :: t
        = List.replicate p.1 ' ' ++ (p.2
            ++ ((fs.map fun p => List.replicate p.1 ' ' ++ p.2).flatten ++ ' ' :: t)) := by
      simp
    have hnext : ∃ t2, (fs.map fun p => List.replicate p.1 ' ' ++ p.2).flatten ++ ' ' :: t
        = ' ' :: t2 := by
      cases fs with
      | nil => exact ⟨t, by simp⟩
      | cons g gs =>
        obtain ⟨n, hn⟩ : ∃ n, g.1 = n + 1 :=
          ⟨g.1 - 1, by have := (h2 g (List.mem_cons_self _ _)).1; omega⟩
        refine ⟨List.replicate n ' ' ++ g.2
          ++ (gs.map fun p => List.replicate p.1 ' ' ++ p.2).flatten ++ ' ' :: t, ?_⟩
        simp only [List.map_cons, List.flatten_cons, hn, List.replicate_succ, List.cons_append]
    obtain ⟨t2, ht2⟩ := hnext
    have hlen : (p :: fs).length + m = (fs.length + m) + 1 := by simp; omega
    rw [hshape, hlen, scanFields, ht2, scanULL_field p.1 p.2 t2 h1, ← ht2]
    simp only [List.map_cons, List.cons_append]
    rw [ih m h2]

theorem fgets_append (rest : List Char) :
    ∀ (pre : List Char) (j : Nat), (∀ ch ∈ pre, ch ≠ '\n') →
      fgets (pre.length + (j + 1)) (pre ++ rest) = pre ++ fgets (j + 1) rest := by
  intro pre
  induction pre with
  | nil => intro j _; simp
  | cons c cs ih =>
    intro j h
    have hc : c ≠ '\n' := h c (List.mem_cons_self _ _)
    have hstep : fgets ((c :: cs).length + (j + 1)) ((c :: cs) ++ rest)
        = c :: fgets (cs.length + (j + 1)) (cs ++ rest) := by
      have hn : (c :: cs).length + (j + 1) = (cs.length + j) + 2 := by simp; omega
      rw [hn]
      show (if c = '\n' then [c] else c :: fgets (cs.length + j + 1) (cs ++ rest)) = _
      rw [if_neg hc]
      have hn2 : cs.length + j + 1 = cs.length + (j + 1) := by omega
      rw [hn2]
    rw [hstep, ih j (fun ch hch => h ch (List.mem_cons_of_mem _ hch))]
    rfl

theorem cString_append (rest : List Char) :
    ∀ pre : List Char, (∀ ch ∈ pre, ch ≠ '\x00') → cString (pre ++ rest) = pre ++ cString rest := by
  intro pre
  induction pre with
  | nil => intro _; rfl
  | cons c cs ih =>
    intro h
    have hc : c ≠ '\x00' := h c (List.mem_cons_self _ _)
    show cString (c :: (cs ++ rest)) = c :: (cs ++ cString rest)
    rw [cString, if_neg hc, ih (fun ch hch => h ch (List.mem_cons_of_mem _ hch))]

theorem counterField_plain {w : Nat} {f : List Char} (hf : counterField w f) :
    ∀ ch ∈ f, ch ≠ '\n' ∧ ch ≠ '\x00' := by
  intro ch hch
  obtain ⟨-, -, -, h1, h2⟩ := isdigit_facts (hf.2.2 ch hch)
  exact ⟨h1, h2⟩

theorem addULL_mod_left (a b : Nat) : addULL (a % ULL) b = addULL a b := by
  simp [addULL, Nat.add_mod]

theorem addULL_mod_right (a b : Nat) : addULL a (b % ULL) = addULL a b := by
  simp [addULL, Nat.add_mod]

theorem addULL_addULL (a b c : Nat) : addULL (addULL a b) c = addULL (a + b) c := by
  simp [addULL, Nat.add_mod]

theorem counterLine_plain (fields : List (Nat × List Char))
    (hf : ∀ p ∈ fields, counterField 16 p.2) :
    ∀ ch ∈ counterLine fields, ch ≠ '\n' ∧ ch ≠ '\x00' := by
  intro ch hch
  simp only [counterLine, List.mem_append, List.mem_flatten, List.mem_map] at hch
  rcases hch with hch | ⟨l, ⟨p, hp, rfl⟩, hch⟩
  · revert ch; decide
  · rcases List.mem_append.1 hch with h | h
    · rw [List.eq_of_mem_replicate h]
      decide
    · exact counterField_plain (hf p hp) ch h

theorem length_eq_ten {α : Type} (l : List α) (h : l.length = 10) :
    ∃ a1 a2 a3 a4 a5 a6 a7 a8 a9 a10, l = [a1, a2, a3, a4, a5, a6, a7, a8, a9, a10] := by
  rcases l with _ | ⟨a1, _ | ⟨a2, _ | ⟨a3, _ | ⟨a4, _ | ⟨a5, _ | ⟨a6, _ | ⟨a7, _ | ⟨a8,
    _ | ⟨a9, _ | ⟨a10, _ | ⟨a11, l⟩⟩⟩⟩⟩⟩⟩⟩⟩⟩⟩ <;>
    first
    | exact ⟨_, _, _, _, _, _, _, _, _, _, rfl⟩
    | (simp only [List.length_cons, List.length_nil] at h; omega)

/-- A first line in which at least `1019` spaces follow `cpu` does not show a digit within the
`1022` characters that `fgets` reads: no counter is converted and the total is `0`. -/
theorem getTotalCpuTime_long_gap (n i : Nat) (hn : n = 1019) (t : List Char) :
    getTotalCpuTime (some ("cpu".toList ++ (List.replicate (n + i) ' ' ++ t))) = 0 := by
  have hplain : ∀ ch ∈ "cpu".toList ++ List.replicate n ' ', ch ≠ '\n' ∧ ch ≠ '\x00' := by
    intro ch hch
    rcases List.mem_append.1 hch with h | h
    · clear hch
      revert ch
      decide
    · rw [List.eq_of_mem_replicate h]
      decide
  have hlen : ("cpu".toList ++ List.replicate n ' ').length + (0 + 1) = 1023 := by
    rw [List.length_append, List.length_replicate, hn]
    rfl
  have hcontent : "cpu".toList ++ (List.replicate (n + i) ' ' ++ t)
      = ("cpu".toList ++ List.replicate n ' ') ++ (List.replicate i ' ' ++ t) := by
    rw [List.replicate_add, List.append_assoc, List.append_assoc]
  have hone : ∀ r : List Char, fgets (0 + 1) r = [] := by
    intro r
    cases r <;> rfl
  have hfg : fgets 1023 ("cpu".toList ++ (List.replicate (n + i) ' ' ++ t))
      = 'c' :: 'p' :: 'u' :: List.replicate n ' ' := by
    rw [hcontent, ← hlen, fgets_append _ _ 0 (fun ch hch => (hplain ch hch).1), hone,
      List.append_nil]
    rfl
  have hnil : cString [] = [] := rfl
  have hc : cString ('c' :: 'p' :: 'u' :: List.replicate n ' ')
      = 'c' :: 'p' :: 'u' :: List.replicate n ' ' := by
    have h := cString_append [] ("cpu".toList ++ List.replicate n ' ')
      (fun ch hch => (hplain ch hch).2)
    rw [List.append_nil, hnil, List.append_nil] at h
    exact h
  have hcr : cString (List.replicate n ' ') = List.replicate n ' ' := by
    have h := cString_append [] (List.replicate n ' ')
      (fun ch hch => (hplain ch (List.mem_append_right _ hch)).2)
    rw [List.append_nil, hnil, List.append_nil] at h
    exact h
  have hscan : scanFields 10 (List.replicate n ' ') = [] := by
    have hs : skipSpace (List.replicate n ' ') = [] := by
      have h := skipSpace_replicate [] n
      rw [List.append_nil] at h
      exact h
    show (match scanULL 16 (List.replicate n ' ') with
      | none => []
      | some (v, rest) => v :: scanFields 9 rest) = []
    simp only [scanULL, hs]
  unfold getTotalCpuTime
  simp only [hfg, hc, hcr, matchLiteral, if_true, hscan]
  rfl

/-! ## Rounding to double precision -/

theorem roundHalfEven_intCast (m : ℤ) : roundHalfEven (m : ℚ) = m := by
  simp [roundHalfEven]

theorem roundHalfEven_le_floor_add_one (x : ℚ) : roundHalfEven x ≤ ⌊x⌋ + 1 := by
  unfold roundHalfEven
  split_ifs <;> omega

theorem floor_le_roundHalfEven (x : ℚ) : ⌊x⌋ ≤ roundHalfEven x := by
  unfold roundHalfEven
  split_ifs <;> omega

theorem roundHalfEven_mono {x y : ℚ} (h : x ≤ y) : roundHalfEven x ≤ roundHalfEven y := by
  have hf : ⌊x⌋ ≤ ⌊y⌋ := Int.floor_mono h
  rcases lt_or_eq_of_le hf with hlt | heq
  · calc roundHalfEven x ≤ ⌊x⌋ + 1 := roundHalfEven_le_floor_add_one x
      _ ≤ ⌊y⌋ := hlt
      _ ≤ roundHalfEven y := floor_le_roundHalfEven y
  · unfold roundHalfEven
    rw [heq]
    have hxy : x - (⌊y⌋ : ℚ) ≤ y - (⌊y⌋ : ℚ) := by linarith
    split_ifs <;> first | omega | (exfalso; linarith)

theorem abs_roundHalfEven_sub_le (x : ℚ) : |(roundHalfEven x : ℚ) - x| ≤ 1 / 2 := by
  have h1 := Int.floor_le x
  have h2 := Int.lt_floor_add_one x
  unfold roundHalfEven
  rw [abs_le]
  split_ifs <;> constructor <;> push_cast <;> linarith

theorem roundHalfEven_eq_of_abs_lt {x : ℚ} {m : ℤ} (h : |x - m| < 1 / 2) :
    roundHalfEven x = m := by
  rw [abs_lt] at h
  have hx := abs_roundHalfEven_sub_le x
  rw [abs_le] at hx
  have h1 : ((roundHalfEven x : ℤ) : ℚ) < (m : ℚ) + 1 := by linarith [h.1, h.2, hx.1, hx.2]
  have h2 : (m : ℚ) - 1 < ((roundHalfEven x : ℤ) : ℚ) := by linarith [h.1, h.2, hx.1, hx.2]
  have h1' : roundHalfEven x < m + 1 := by exact_mod_cast h1
  have h2' : m - 1 < roundHalfEven x := by exact_mod_cast h2
  omega


/-- The rounding to the nearest integer is odd: negating the argument negates the result. -/
theorem roundHalfEven_neg (x : ℚ) : roundHalfEven (-x) = -roundHalfEven x := by
  rcases eq_or_lt_of_le (Int.floor_le x) with h | h
  · have hx : -x = ((-⌊x⌋ : ℤ) : ℚ) := by
      push_cast
      rw [h]
    have hx2 : roundHalfEven x = ⌊x⌋ := by
      have := roundHalfEven_intCast ⌊x⌋
      rwa [h] at this
    rw [hx, roundHalfEven_intCast, hx2]
  · have hlt := Int.lt_floor_add_one x
    have hf : ⌊-x⌋ = -⌊x⌋ - 1 := by
      rw [Int.floor_eq_iff]
      push_cast
      constructor <;> linarith
    unfold roundHalfEven
    rw [hf]
    push_cast
    split_ifs <;> first | omega | (exfalso; linarith)

/-- A tie is rounded to the even neighbour. -/
theorem roundHalfEven_tie (m : ℤ) :
    roundHalfEven ((m : ℚ) + 1 / 2) = if m % 2 = 0 then m else m + 1 := by
  have hf : ⌊(m : ℚ) + 1 / 2⌋ = m := by
    rw [Int.floor_eq_iff]
    constructor <;> linarith
  unfold roundHalfEven
  rw [hf]
  norm_num

theorem two_zpow_pos (e : ℤ) : (0 : ℚ) < 2 ^ e := zpow_pos (by norm_num) e

theorem two_zpow_succ (e : ℤ) : (2 : ℚ) ^ (e + 1) = 2 ^ 53 * 2 ^ (e - 52) := by
  have h : e + 1 = 53 + (e - 52) := by ring
  rw [h, zpow_add₀ (by norm_num : (2 : ℚ) ≠ 0)]
  norm_num

theorem two_zpow_split (e : ℤ) : (2 : ℚ) ^ e = 2 ^ 52 * 2 ^ (e - 52) := by
  have h : e = 52 + (e - 52) := by ring
  nth_rewrite 1 [h]
  rw [zpow_add₀ (by norm_num : (2 : ℚ) ≠ 0)]
  norm_num

theorem log_le_binade (x : ℚ) : Int.log 2 |x| ≤ binade x := le_max_left _ _

theorem binade_ge (x : ℚ) : -1022 ≤ binade x := le_max_right _ _

theorem lt_zpow_binade {x : ℚ} : |x| < 2 ^ (binade x + 1) := by
  have h1 : |x| < ((2 : ℕ) : ℚ) ^ (Int.log 2 |x| + 1) := Int.lt_zpow_succ_log_self (by norm_num) _
  have h2 : ((2 : ℕ) : ℚ) ^ (Int.log 2 |x| + 1) ≤ ((2 : ℕ) : ℚ) ^ (binade x + 1) :=
    zpow_le_zpow_right₀ (by norm_num) (by have := log_le_binade x; omega)
  have h3 := lt_of_lt_of_le h1 h2
  simpa using h3

theorem binade_eq_log {x : ℚ} (h : (2 : ℚ) ^ (-1022 : ℤ) ≤ |x|) : binade x = Int.log 2 |x| := by
  have hpos : 0 < |x| := lt_of_lt_of_le (two_zpow_pos _) h
  have h' : ((2 : ℕ) : ℚ) ^ (-1022 : ℤ) ≤ |x| := by simpa using h
  have := (Int.zpow_le_iff_le_log (by norm_num : 1 < 2) hpos).1 h'
  exact max_eq_left this

theorem zpow_binade_le {x : ℚ} (h : (2 : ℚ) ^ (-1022 : ℤ) ≤ |x|) : (2 : ℚ) ^ binade x ≤ |x| := by
  have hpos : 0 < |x| := lt_of_lt_of_le (two_zpow_pos _) h
  rw [binade_eq_log h]
  have := Int.zpow_log_le_self (b := 2) (r := |x|) (by norm_num) hpos
  simpa using this

theorem binade_eq {x : ℚ} {e : ℤ} (h1 : (2 : ℚ) ^ e ≤ |x|) (h2 : |x| < 2 ^ (e + 1))
    (h3 : -1022 ≤ e) : binade x = e := by
  have hpos : 0 < |x| := lt_of_lt_of_le (two_zpow_pos _) h1
  have h1' : ((2 : ℕ) : ℚ) ^ e ≤ |x| := by simpa using h1
  have h2' : |x| < ((2 : ℕ) : ℚ) ^ (e + 1) := by simpa using h2
  have ha := (Int.zpow_le_iff_le_log (by norm_num : 1 < 2) hpos).1 h1'
  have hb := (Int.lt_zpow_iff_log_lt (by norm_num : 1 < 2) hpos).1 h2'
  unfold binade
  rw [max_eq_left (by omega)]
  omega

theorem binade_mono {x y : ℚ} (hx : 0 < x) (h : x ≤ y) : binade x ≤ binade y := by
  unfold binade
  have hy : 0 < y := lt_of_lt_of_le hx h
  rw [abs_of_pos hx, abs_of_pos hy]
  exact max_le_max (Int.log_mono_right hx h) (le_refl _)

theorem roundQ_zero : roundQ 0 = 0 := by
  simp [roundQ, roundHalfEven]

theorem roundQ_nonneg {x : ℚ} (h : 0 ≤ x) : 0 ≤ roundQ x := by
  unfold roundQ
  have hu := two_zpow_pos (binade x - 52)
  have ht : (0 : ℚ) ≤ x / 2 ^ (binade x - 52) := div_nonneg h hu.le
  have h0 : roundHalfEven 0 ≤ roundHalfEven (x / 2 ^ (binade x - 52)) := roundHalfEven_mono ht
  have h0' : (0 : ℤ) ≤ roundHalfEven (x / 2 ^ (binade x - 52)) := by
    have := roundHalfEven_intCast 0
    simp only [Int.cast_zero] at this
    rwa [this] at h0
  have : (0 : ℚ) ≤ (roundHalfEven (x / 2 ^ (binade x - 52)) : ℚ) := by exact_mod_cast h0'
  exact mul_nonneg this hu.le

/-- The rounded value of a positive number is at most the next power of two. -/
theorem roundQ_le_zpow {x : ℚ} (hx : 0 < x) : roundQ x ≤ 2 ^ (binade x + 1) := by
  unfold roundQ
  have hu := two_zpow_pos (binade x - 52)
  have hlt : x < 2 ^ (binade x + 1) := by
    have := lt_zpow_binade (x := x)
    rwa [abs_of_pos hx] at this
  rw [two_zpow_succ] at hlt ⊢
  have ht : x / 2 ^ (binade x - 52) ≤ ((2 ^ 53 : ℤ) : ℚ) := by
    rw [div_le_iff₀ hu]
    push_cast
    exact hlt.le
  have h1 := roundHalfEven_mono ht
  rw [roundHalfEven_intCast] at h1
  have h2 : (roundHalfEven (x / 2 ^ (binade x - 52)) : ℚ) ≤ 2 ^ 53 := by exact_mod_cast h1
  exact mul_le_mul_of_nonneg_right h2 hu.le

/-- The rounded value of a positive normal number is at least the power of two below it. -/
theorem zpow_le_roundQ {x : ℚ} (hx : 0 < x) (h : (2 : ℚ) ^ (-1022 : ℤ) ≤ x) :
    (2 : ℚ) ^ binade x ≤ roundQ x := by
  unfold roundQ
  have hu := two_zpow_pos (binade x - 52)
  have hle : (2 : ℚ) ^ binade x ≤ x := by
    have := zpow_binade_le (x := x) (by rwa [abs_of_pos hx])
    rwa [abs_of_pos hx] at this
  rw [two_zpow_split] at hle
  nth_rewrite 1 [two_zpow_split]
  have ht : ((2 ^ 52 : ℤ) : ℚ) ≤ x / 2 ^ (binade x - 52) := by
    rw [le_div_iff₀ hu]
    push_cast
    exact hle
  have h1 := roundHalfEven_mono ht
  rw [roundHalfEven_intCast] at h1
  have h2 : (2 : ℚ) ^ 52 ≤ (roundHalfEven (x / 2 ^ (binade x - 52)) : ℚ) := by exact_mod_cast h1
  exact mul_le_mul_of_nonneg_right h2 hu.le

theorem roundQ_mono {x y : ℚ} (hx : 0 ≤ x) (h : x ≤ y) : roundQ x ≤ roundQ y := by
  rcases eq_or_lt_of_le hx with h0 | hpos
  · rw [← h0, roundQ_zero]
    exact roundQ_nonneg (le_trans hx h)
  · have hy : 0 < y := lt_of_lt_of_le hpos h
    have hb := binade_mono hpos h
    rcases eq_or_lt_of_le hb with heq | hlt
    · unfold roundQ
      rw [heq]
      have hu := two_zpow_pos (binade y - 52)
      have ht : x / 2 ^ (binade y - 52) ≤ y / 2 ^ (binade y - 52) :=
        div_le_div_of_nonneg_right h hu.le
      have h1 : (roundHalfEven (x / 2 ^ (binade y - 52)) : ℚ)
          ≤ (roundHalfEven (y / 2 ^ (binade y - 52)) : ℚ) := by
        exact_mod_cast roundHalfEven_mono ht
      exact mul_le_mul_of_nonneg_right h1 hu.le
    · have hynorm : (2 : ℚ) ^ (-1022 : ℤ) ≤ y := by
        have h1 : -1022 < binade y := lt_of_le_of_lt (binade_ge x) hlt
        have h2 : binade y = Int.log 2 |y| := by
          unfold binade at h1 ⊢
          rcases le_total (Int.log 2 |y|) (-1022) with hc | hc
          · rw [max_eq_right hc] at h1
            exact absurd h1 (lt_irrefl _)
          · exact max_eq_left hc
        have h3 : (-1022 : ℤ) ≤ Int.log 2 |y| := by omega
        have h4 := (Int.zpow_le_iff_le_log (R := ℚ) (by norm_num : 1 < 2)
          (abs_pos.2 hy.ne')).2 h3
        rw [abs_of_pos hy] at h4
        simpa using h4
      calc roundQ x ≤ 2 ^ (binade x + 1) := roundQ_le_zpow hpos
        _ ≤ 2 ^ binade y := zpow_le_zpow_right₀ (by norm_num) (by omega)
        _ ≤ roundQ y := zpow_le_roundQ hy hynorm

/-- A multiple of the unit in the last place is not changed by the rounding. -/
theorem roundQ_of_multiple {x : ℚ} (m : ℤ) (h : x = m * 2 ^ (binade x - 52)) : roundQ x = x := by
  have hu := two_zpow_pos (binade x - 52)
  have ht : x / 2 ^ (binade x - 52) = (m : ℚ) := by
    rw [div_eq_iff hu.ne']
    exact h
  unfold roundQ
  rw [ht, roundHalfEven_intCast]
  exact h.symm

/-- The evaluation of the rounding at a number whose binade is known. -/
theorem roundQ_eq {x : ℚ} (e n : ℤ) (h1 : (2 : ℚ) ^ e ≤ |x|) (h2 : |x| < 2 ^ (e + 1))
    (h3 : -1022 ≤ e) (h4 : |x / 2 ^ (e - 52) - n| < 1 / 2) : roundQ x = n * 2 ^ (e - 52) := by
  unfold roundQ
  rw [binade_eq h1 h2 h3, roundHalfEven_eq_of_abs_lt h4]

/-- The evaluation of the rounding at a tie whose lower neighbour is odd. -/
theorem roundQ_tie {x : ℚ} (e m : ℤ) (h1 : (2 : ℚ) ^ e ≤ |x|) (h2 : |x| < 2 ^ (e + 1))
    (h3 : -1022 ≤ e) (h4 : x / 2 ^ (e - 52) = m + 1 / 2) (hodd : m % 2 = 1) :
    roundQ x = ((m + 1 : ℤ) : ℚ) * 2 ^ (e - 52) := by
  unfold roundQ
  rw [binade_eq h1 h2 h3, h4, roundHalfEven_tie, if_neg (by omega)]

/-- The rounding is odd: negating the argument negates the result. -/
theorem roundQ_neg (x : ℚ) : roundQ (-x) = -roundQ x := by
  have hb : binade (-x) = binade x := by
    unfold binade
    rw [abs_neg]
  unfold roundQ
  rw [hb, neg_div, roundHalfEven_neg]
  push_cast
  ring

/-- Doubling a normal number commutes with the rounding. -/
theorem roundQ_mul_two {x : ℚ} (h : (2 : ℚ) ^ (-1022 : ℤ) ≤ |x|) :
    roundQ (x * 2) = roundQ x * 2 := by
  have hb : binade (x * 2) = binade x + 1 := by
    apply binade_eq
    · rw [abs_mul, abs_two, zpow_add_one₀ (by norm_num)]
      exact mul_le_mul_of_nonneg_right (zpow_binade_le h) (by norm_num)
    · rw [abs_mul, abs_two, zpow_add_one₀ (by norm_num : (2 : ℚ) ≠ 0) (binade x + 1)]
      exact mul_lt_mul_of_pos_right lt_zpow_binade (by norm_num)
    · have := binade_ge x
      omega
  have e1 : (2 : ℚ) ^ (binade x + 1 - 52) = 2 ^ (binade x - 52) * 2 := by
    rw [← zpow_add_one₀ (by norm_num : (2 : ℚ) ≠ 0)]
    congr 1
    ring
  have hu := two_zpow_pos (binade x - 52)
  unfold roundQ
  rw [hb, e1]
  have e2 : x * 2 / (2 ^ (binade x - 52) * 2) = x / 2 ^ (binade x - 52) := by
    field_simp
    ring
  rw [e2]
  ring

/-- A natural number of at most 53 bits is not changed by the rounding. -/
theorem roundQ_natCast (n : ℕ) (h : n ≤ 2 ^ 53) : roundQ (n : ℚ) = n := by
  rcases Nat.eq_zero_or_pos n with h0 | hpos
  · subst h0
    simpa using roundQ_zero
  · have hlog : Int.log 2 |(n : ℚ)| = Nat.log 2 n := by
      rw [abs_of_nonneg (by positivity)]
      exact Int.log_natCast 2 n
    have hb : binade (n : ℚ) = Nat.log 2 n := by
      unfold binade
      rw [hlog]
      exact max_eq_left (by omega)
    have hL1 : 2 ^ Nat.log 2 n ≤ n := Nat.pow_log_le_self 2 hpos.ne'
    have hL2 : Nat.log 2 n ≤ 53 := by
      by_contra hc
      have : 2 ^ 54 ≤ 2 ^ Nat.log 2 n := Nat.pow_le_pow_right (by norm_num) (by omega)
      omega
    rcases Nat.lt_or_ge (Nat.log 2 n) 53 with hlt | hge
    · obtain ⟨k, hk⟩ : ∃ k : ℕ, Nat.log 2 n + k = 52 := ⟨52 - Nat.log 2 n, by omega⟩
      apply roundQ_of_multiple ((n * 2 ^ k : ℕ) : ℤ)
      rw [hb]
      have he : ((Nat.log 2 n : ℕ) : ℤ) - 52 = -(k : ℤ) := by omega
      rw [he, zpow_neg, zpow_natCast]
      push_cast
      field_simp
    · have hn : n = 2 ^ 53 := by
        have h53 : Nat.log 2 n = 53 := by omega
        rw [h53] at hL1
        omega
      apply roundQ_of_multiple ((2 ^ 52 : ℕ) : ℤ)
      rw [hb]
      have h53 : Nat.log 2 n = 53 := by omega
      rw [h53, hn]
      norm_num

/-- The relative error of the rounding of a positive normal number is at most `2 ^ (-53)`. -/
theorem roundQ_error {x : ℚ} (hx : 0 < x) (h : (2 : ℚ) ^ (-1022 : ℤ) ≤ x) :
    x * (1 - 1 / 2 ^ 53) ≤ roundQ x ∧ roundQ x ≤ x * (1 + 1 / 2 ^ 53) := by
  have hu := two_zpow_pos (binade x - 52)
  have hle : (2 : ℚ) ^ binade x ≤ x := by
    have := zpow_binade_le (x := x) (by rwa [abs_of_pos hx])
    rwa [abs_of_pos hx] at this
  rw [two_zpow_split] at hle
  have herr := abs_roundHalfEven_sub_le (x / 2 ^ (binade x - 52))
  rw [abs_le] at herr
  have hx' : x = x / 2 ^ (binade x - 52) * 2 ^ (binade x - 52) := by
    field_simp
  have hd1 : roundQ x - x
      = ((roundHalfEven (x / 2 ^ (binade x - 52)) : ℚ) - x / 2 ^ (binade x - 52))
        * 2 ^ (binade x - 52) := by
    unfold roundQ
    field_simp
  have hup : roundQ x - x ≤ 1 / 2 * 2 ^ (binade x - 52) := by
    rw [hd1]
    exact mul_le_mul_of_nonneg_right herr.2 hu.le
  have hlo : -(1 / 2) * 2 ^ (binade x - 52) ≤ roundQ x - x := by
    rw [hd1]
    exact mul_le_mul_of_nonneg_right herr.1 hu.le
  have hulp : (1 : ℚ) / 2 * 2 ^ (binade x - 52) ≤ x * (1 / 2 ^ 53) := by
    have : (1 : ℚ) / 2 * 2 ^ (binade x - 52) = 2 ^ 52 * 2 ^ (binade x - 52) * (1 / 2 ^ 53) := by
      ring
    rw [this]
    exact mul_le_mul_of_nonneg_right hle (by positivity)
  constructor <;> linarith

theorem roundQ_two_zpow (e : ℤ) (h : -1022 ≤ e) : roundQ ((2 : ℚ) ^ e) = 2 ^ e := by
  have hpos := two_zpow_pos e
  have hb : binade ((2 : ℚ) ^ e) = e := by
    apply binade_eq _ _ h
    · rw [abs_of_pos hpos]
    · rw [abs_of_pos hpos]
      exact zpow_lt_zpow_right₀ (by norm_num) (by omega)
  apply roundQ_of_multiple ((2 ^ 52 : ℕ) : ℤ)
  rw [hb]
  push_cast
  exact two_zpow_split e

theorem roundQ_le_pow {x : ℚ} (k : ℕ) (h0 : 0 ≤ x) (h : x ≤ 2 ^ k) : roundQ x ≤ 2 ^ k := by
  have h1 := roundQ_mono h0 h
  have h2 := roundQ_two_zpow (k : ℤ) (by omega)
  rw [zpow_natCast] at h2
  rwa [h2] at h1

theorem one_le_roundQ {x : ℚ} (h : 1 ≤ x) : 1 ≤ roundQ x := by
  have h1 := roundQ_mono (by norm_num) h
  have h2 := roundQ_natCast 1 (by norm_num)
  simp only [Nat.cast_one] at h2
  rwa [h2] at h1

theorem normal_of_le {x : ℚ} (h : 1 / 2 ^ 1022 ≤ x) : (2 : ℚ) ^ (-1022 : ℤ) ≤ x := by
  have : (2 : ℚ) ^ (-1022 : ℤ) = 1 / 2 ^ 1022 := by
    rw [zpow_neg, one_div]
    norm_cast
  rwa [this]

/-- The rounding commutes with the absolute value. -/
theorem abs_roundQ (x : ℚ) : |roundQ x| = roundQ |x| := by
  rcases le_total 0 x with h0 | h0
  · rw [abs_of_nonneg h0, abs_of_nonneg (roundQ_nonneg h0)]
  · have h1 : 0 ≤ -x := by linarith
    have h2 := roundQ_nonneg h1
    rw [roundQ_neg] at h2
    rw [abs_of_nonpos h0, roundQ_neg, abs_of_nonpos (by linarith)]

namespace CDouble

/-- No overflow: a non-negative exact result of at most `2 ^ 1023` is rounded to a finite
value. -/
theorem round_fin {x : ℚ} (h0 : 0 ≤ x) (hb : x ≤ 2 ^ 1023) : round x = fin (roundQ x) := by
  have h1 := roundQ_nonneg h0
  have h2 := roundQ_le_pow 1023 h0 hb
  have h3 : ¬ (2 : ℚ) ^ 1024 ≤ roundQ x := by
    intro h
    have : (2 : ℚ) ^ 1023 < 2 ^ 1024 := by norm_num
    linarith
  have h4 : ¬ roundQ x ≤ -(2 : ℚ) ^ 1024 := by
    intro h
    have : (0 : ℚ) < 2 ^ 1024 := by positivity
    linarith
  simp only [round, if_neg h3, if_neg h4]

/-- No overflow: an exact result of absolute value at most `2 ^ 1023` is rounded to a finite
value. -/
theorem round_fin_abs {x : ℚ} (hb : |x| ≤ 2 ^ 1023) : round x = fin (roundQ x) := by
  rcases le_total 0 x with h0 | h0
  · exact round_fin h0 (le_trans (le_abs_self x) hb)
  · have h1 : 0 ≤ -x := by linarith
    have h2 := roundQ_nonneg h1
    have h3 := roundQ_le_pow 1023 h1 (le_trans (neg_le_abs x) hb)
    rw [roundQ_neg] at h2 h3
    have h4 : ¬ (2 : ℚ) ^ 1024 ≤ roundQ x := by
      intro h
      have : (0 : ℚ) < 2 ^ 1024 := by positivity
      linarith
    have h5 : ¬ roundQ x ≤ -(2 : ℚ) ^ 1024 := by
      intro h
      have : (2 : ℚ) ^ 1023 < 2 ^ 1024 := by norm_num
      linarith
    simp only [round, if_neg h4, if_neg h5]

/-- A natural number of at most 53 bits is converted exactly. -/
theorem round_natCast (n : ℕ) (h : n ≤ 2 ^ 53) : round (n : ℚ) = fin (n : ℚ) := by
  have hq : (n : ℚ) ≤ 2 ^ 53 := by exact_mod_cast h
  rw [round_fin (by positivity) (le_trans hq (by norm_num)), roundQ_natCast n h]

theorem ofULL_small (n : ℕ) (h : n ≤ 2 ^ 53) : ofULL n = fin (n : ℚ) := round_natCast n h

theorem ofLong_small (n : ℕ) (h : n ≤ 2 ^ 53) : ofLong (n : ℤ) = fin (n : ℚ) := by
  have := round_natCast n h
  simpa [ofLong] using this

/-- The evaluation of a rounding from the binade of the exact result and the nearest multiple
of the unit in the last place. -/
theorem round_eq {x : ℚ} (e n : ℤ) (v : ℚ) (h1 : (2 : ℚ) ^ e ≤ |x|) (h2 : |x| < 2 ^ (e + 1))
    (h3 : -1022 ≤ e) (h4 : |x / 2 ^ (e - 52) - n| < 1 / 2) (hv : (n : ℚ) * 2 ^ (e - 52) = v)
    (hlo : -(2 : ℚ) ^ 1024 < v) (hhi : v < 2 ^ 1024) : round x = fin v := by
  have hq : roundQ x = v := by rw [roundQ_eq e n h1 h2 h3 h4, hv]
  simp only [round, hq, if_neg (not_le.2 hhi), if_neg (not_le.2 hlo)]

end CDouble

/-- The computation of `calculateCPUPercentage` when neither subtraction wraps around, the
total-CPU-time delta is positive and the number of processors is a `long`: four roundings of
conversions and three of operations, none of which overflows. -/
theorem calculateCPUPercentage_chain (stat : Option (List Char)) (nproc : Int)
    (before after : proc_t) (cpuTime : Nat)
    (hproc : addULL before.utime before.stime ≤ addULL after.utime after.stime)
    (hcpu : cpuTime < getTotalCpuTime stat) (hn0 : -2 ^ 63 ≤ nproc) (hn1 : nproc < 2 ^ 63) :
    calculateCPUPercentage stat nproc before after cpuTime =
      CDouble.fin (roundQ (roundQ (roundQ
        (roundQ ((addULL after.utime after.stime - addULL before.utime before.stime : ℕ) : ℚ)
          / roundQ ((getTotalCpuTime stat - cpuTime : ℕ) : ℚ)) * 100) * roundQ (nproc : ℚ))) := by
  have h1 := subULL_of_le hproc (addULL_lt _ _)
  have h2 := subULL_of_le (le_of_lt hcpu) (getTotalCpuTime_lt stat)
  have hpN : addULL after.utime after.stime - addULL before.utime before.stime < ULL :=
    lt_of_le_of_lt (Nat.sub_le _ _) (addULL_lt _ _)
  have hdN : getTotalCpuTime stat - cpuTime < ULL :=
    lt_of_le_of_lt (Nat.sub_le _ _) (getTotalCpuTime_lt stat)
  have hd1N : 1 ≤ getTotalCpuTime stat - cpuTime := by omega
  generalize addULL after.utime after.stime - addULL before.utime before.stime = p at *
  generalize getTotalCpuTime stat - cpuTime = d at *
  have hp0 : (0 : ℚ) ≤ (p : ℚ) := by positivity
  have hp64 : (p : ℚ) ≤ 2 ^ 64 := by
    have : p ≤ 2 ^ 64 := by unfold ULL at hpN; omega
    exact_mod_cast this
  have hd1 : (1 : ℚ) ≤ (d : ℚ) := by exact_mod_cast hd1N
  have hd64 : (d : ℚ) ≤ 2 ^ 64 := by
    have : d ≤ 2 ^ 64 := by unfold ULL at hdN; omega
    exact_mod_cast this
  have hP0 := roundQ_nonneg hp0
  have hP64 := roundQ_le_pow 64 hp0 hp64
  have hD1 := one_le_roundQ hd1
  have hDpos : (0 : ℚ) < roundQ (d : ℚ) := by linarith
  have hPD0 : (0 : ℚ) ≤ roundQ (p : ℚ) / roundQ (d : ℚ) := div_nonneg hP0 hDpos.le
  have hPD64 : roundQ (p : ℚ) / roundQ (d : ℚ) ≤ 2 ^ 64 :=
    le_trans (div_le_self hP0 hD1) hP64
  have hQ0 := roundQ_nonneg hPD0
  have hQ64 := roundQ_le_pow 64 hPD0 hPD64
  have hQc0 : (0 : ℚ) ≤ roundQ (roundQ (p : ℚ) / roundQ (d : ℚ)) * 100 := by positivity
  have hQc71 : roundQ (roundQ (p : ℚ) / roundQ (d : ℚ)) * 100 ≤ 2 ^ 71 := by
    have : roundQ (roundQ (p : ℚ) / roundQ (d : ℚ)) * 100 ≤ 2 ^ 64 * 100 :=
      mul_le_mul_of_nonneg_right hQ64 (by norm_num)
    linarith [show (2 : ℚ) ^ 64 * 100 ≤ 2 ^ 71 by norm_num]
  have hX0 := roundQ_nonneg hQc0
  have hX71 := roundQ_le_pow 71 hQc0 hQc71
  have hn63 : |(nproc : ℚ)| ≤ 2 ^ 63 := by
    rw [abs_le]
    constructor
    · exact_mod_cast hn0
    · exact_mod_cast hn1.le
  have hN63 : |roundQ (nproc : ℚ)| ≤ 2 ^ 63 := by
    rw [abs_roundQ]
    exact roundQ_le_pow 63 (abs_nonneg _) hn63
  have hXN : |roundQ (roundQ (roundQ (p : ℚ) / roundQ (d : ℚ)) * 100) * roundQ (nproc : ℚ)|
      ≤ 2 ^ 1023 := by
    rw [abs_mul, abs_of_nonneg hX0]
    have : roundQ (roundQ (roundQ (p : ℚ) / roundQ (d : ℚ)) * 100) * |roundQ (nproc : ℚ)|
        ≤ 2 ^ 71 * 2 ^ 63 := mul_le_mul hX71 hN63 (abs_nonneg _) (by positivity)
    linarith [show (2 : ℚ) ^ 71 * 2 ^ 63 ≤ 2 ^ 1023 by norm_num]
  have big : ∀ {x : ℚ}, x ≤ 2 ^ 71 → x ≤ 2 ^ 1023 := fun h =>
    le_trans h (by norm_num)
  have e1 : CDouble.ofULL p = CDouble.fin (roundQ (p : ℚ)) :=
    CDouble.round_fin hp0 (big (le_trans hp64 (by norm_num)))
  have e2 : CDouble.ofULL d = CDouble.fin (roundQ (d : ℚ)) :=
    CDouble.round_fin (by positivity) (big (le_trans hd64 (by norm_num)))
  have e3 : CDouble.ofLong nproc = CDouble.fin (roundQ (nproc : ℚ)) :=
    CDouble.round_fin_abs (big (le_trans hn63 (by norm_num)))
  have e4 := CDouble.round_fin hPD0 (big (le_trans hPD64 (by norm_num)))
  have e5 := CDouble.round_fin hQc0 (big hQc71)
  have e6 := CDouble.round_fin_abs hXN
  simp only [calculateCPUPercentage, h1, h2, e1, e2, e3, CDouble.div, CDouble.mul,
    if_neg hDpos.ne', e4, e5, e6]

/-- The accumulated rounding error of the seven roundings of `calculateCPUPercentage`: the
relative error of the result is at most `2 ^ (-50)`. -/
theorem roundQ_chain_error (p d n : ℚ) (hp : 1 ≤ p) (hd : 1 ≤ d) (hd64 : d ≤ 2 ^ 64)
    (hn : 1 ≤ n) :
    |roundQ (roundQ (roundQ (roundQ p / roundQ d) * 100) * roundQ n) - p / d * 100 * n|
      ≤ p / d * 100 * n / 2 ^ 50 := by
  have small : ∀ {x : ℚ}, 1 / 2 ^ 66 ≤ x → (2 : ℚ) ^ (-1022 : ℤ) ≤ x := fun h =>
    normal_of_le (le_trans (by norm_num) h)
  have hp0 : 0 < p := by linarith
  have hd0 : 0 < d := by linarith
  have hn0 : 0 < n := by linarith
  have hP := roundQ_error hp0 (small (le_trans (by norm_num) hp))
  have hD := roundQ_error hd0 (small (le_trans (by norm_num) hd))
  have hN := roundQ_error hn0 (small (le_trans (by norm_num) hn))
  have hP1 := one_le_roundQ hp
  have hD1 := one_le_roundQ hd
  have hN1 := one_le_roundQ hn
  have hD64 := roundQ_le_pow 64 hd0.le hd64
  have hDpos : 0 < roundQ d := by linarith
  have hPpos : 0 < roundQ p := by linarith
  have hNpos : 0 < roundQ n := by linarith
  have hPDlo : 1 / 2 ^ 64 ≤ roundQ p / roundQ d := by
    rw [div_le_div_iff₀ (by positivity) hDpos]
    calc (1 : ℚ) * roundQ d ≤ 1 * 2 ^ 64 := by linarith
      _ ≤ roundQ p * 2 ^ 64 := by
          exact mul_le_mul_of_nonneg_right hP1 (by positivity)
  have hPDpos : 0 < roundQ p / roundQ d := lt_of_lt_of_le (by positivity) hPDlo
  have hQ := roundQ_error hPDpos (small (le_trans (by norm_num) hPDlo))
  obtain ⟨u, hu⟩ : ∃ u : ℚ, u = 1 / 2 ^ 53 := ⟨_, rfl⟩
  rw [← hu] at hP hD hN hQ
  have hu0 : 0 < u := by rw [hu]; positivity
  have hu1 : u ≤ 1 / 2 := by rw [hu]; norm_num
  have h1u : 0 < 1 - u := by linarith
  have hQlo : 1 / 2 ^ 65 ≤ roundQ (roundQ p / roundQ d) := by
    refine le_trans ?_ hQ.1
    calc (1 : ℚ) / 2 ^ 65 = 1 / 2 ^ 64 * (1 / 2) := by norm_num
      _ ≤ roundQ p / roundQ d * (1 - u) :=
          mul_le_mul hPDlo (by linarith) (by norm_num) hPDpos.le
  have hQpos : 0 < roundQ (roundQ p / roundQ d) := lt_of_lt_of_le (by positivity) hQlo
  have hQClo : 1 / 2 ^ 65 ≤ roundQ (roundQ p / roundQ d) * 100 := by nlinarith
  have hQCpos : 0 < roundQ (roundQ p / roundQ d) * 100 := by positivity
  have hX := roundQ_error hQCpos (small (le_trans (by norm_num) hQClo))
  rw [← hu] at hX
  have hXlo : 1 / 2 ^ 66 ≤ roundQ (roundQ (roundQ p / roundQ d) * 100) := by
    refine le_trans ?_ hX.1
    calc (1 : ℚ) / 2 ^ 66 = 1 / 2 ^ 65 * (1 / 2) := by norm_num
      _ ≤ roundQ (roundQ p / roundQ d) * 100 * (1 - u) :=
          mul_le_mul hQClo (by linarith) (by norm_num) hQCpos.le
  have hXpos : 0 < roundQ (roundQ (roundQ p / roundQ d) * 100) :=
    lt_of_lt_of_le (by positivity) hXlo
  have hXNlo : 1 / 2 ^ 66 ≤ roundQ (roundQ (roundQ p / roundQ d) * 100) * roundQ n := by
    calc (1 : ℚ) / 2 ^ 66 = 1 / 2 ^ 66 * 1 := by ring
      _ ≤ roundQ (roundQ (roundQ p / roundQ d) * 100) * roundQ n :=
          mul_le_mul hXlo hN1 (by norm_num) hXpos.le
  have hXNpos : 0 < roundQ (roundQ (roundQ p / roundQ d) * 100) * roundQ n := by positivity
  have hR := roundQ_error hXNpos (small hXNlo)
  rw [← hu] at hR
  have hPDhi : roundQ p / roundQ d ≤ p * (1 + u) / (d * (1 - u)) :=
    div_le_div₀ (by positivity) hP.2 (by positivity) hD.1
  have hQhi : roundQ (roundQ p / roundQ d) ≤ p * (1 + u) / (d * (1 - u)) * (1 + u) :=
    le_trans hQ.2 (mul_le_mul_of_nonneg_right hPDhi (by linarith))
  have hXhi : roundQ (roundQ (roundQ p / roundQ d) * 100)
      ≤ p * (1 + u) / (d * (1 - u)) * (1 + u) * 100 * (1 + u) :=
    le_trans hX.2 (mul_le_mul_of_nonneg_right
      (mul_le_mul_of_nonneg_right hQhi (by norm_num)) (by linarith))
  have hRhi : roundQ (roundQ (roundQ (roundQ p / roundQ d) * 100) * roundQ n)
      ≤ p * (1 + u) / (d * (1 - u)) * (1 + u) * 100 * (1 + u) * (n * (1 + u)) * (1 + u) :=
    le_trans hR.2 (mul_le_mul_of_nonneg_right
      (mul_le_mul hXhi hN.2 hNpos.le (by positivity)) (by linarith))
  have hPDlo2 : p * (1 - u) / (d * (1 + u)) ≤ roundQ p / roundQ d :=
    div_le_div₀ hPpos.le hP.1 hDpos hD.2
  have hQlo2 : p * (1 - u) / (d * (1 + u)) * (1 - u) ≤ roundQ (roundQ p / roundQ d) :=
    le_trans (mul_le_mul_of_nonneg_right hPDlo2 h1u.le) hQ.1
  have hXlo2 : p * (1 - u) / (d * (1 + u)) * (1 - u) * 100 * (1 - u)
      ≤ roundQ (roundQ (roundQ p / roundQ d) * 100) :=
    le_trans (mul_le_mul_of_nonneg_right
      (mul_le_mul_of_nonneg_right hQlo2 (by norm_num)) h1u.le) hX.1
  have hRlo : p * (1 - u) / (d * (1 + u)) * (1 - u) * 100 * (1 - u) * (n * (1 - u)) * (1 - u)
      ≤ roundQ (roundQ (roundQ (roundQ p / roundQ d) * 100) * roundQ n) :=
    le_trans (mul_le_mul_of_nonneg_right
      (mul_le_mul hXlo2 hN.1 (by positivity) hXpos.le) h1u.le) hR.1
  have hE : 0 < p / d * 100 * n := by positivity
  have keyhi : p * (1 + u) / (d * (1 - u)) * (1 + u) * 100 * (1 + u) * (n * (1 + u)) * (1 + u)
      = p / d * 100 * n * ((1 + u) ^ 5 / (1 - u)) := by
    field_simp
    ring
  have keylo : p * (1 - u) / (d * (1 + u)) * (1 - u) * 100 * (1 - u) * (n * (1 - u)) * (1 - u)
      = p / d * 100 * n * ((1 - u) ^ 5 / (1 + u)) := by
    field_simp
    ring
  have chi : (1 + u) ^ 5 / (1 - u) ≤ 1 + 1 / 2 ^ 50 := by
    rw [hu]
    norm_num
  have clo : 1 - 1 / 2 ^ 50 ≤ (1 - u) ^ 5 / (1 + u) := by
    rw [hu]
    norm_num
  rw [keyhi] at hRhi
  rw [keylo] at hRlo
  have h1 := mul_le_mul_of_nonneg_left chi hE.le
  have h2 := mul_le_mul_of_nonneg_left clo hE.le
  rw [abs_le]
  constructor <;> linarith

/-- The result of the seven roundings is within a relative error of `2 ^ (-50)` of the exact
value, for every process delta, every positive total delta and every number of processors. -/
theorem roundQ_chain_near (p d : ℕ) (n : ℤ) (hd : 1 ≤ d) (hd64 : d ≤ 2 ^ 64) :
    |roundQ (roundQ (roundQ (roundQ (p : ℚ) / roundQ (d : ℚ)) * 100) * roundQ (n : ℚ))
        - (p : ℚ) / d * 100 * n| ≤ |(p : ℚ) / d * 100 * n| / 2 ^ 50 := by
  have hdq : (1 : ℚ) ≤ (d : ℚ) := by exact_mod_cast hd
  have hd64q : (d : ℚ) ≤ 2 ^ 64 := by exact_mod_cast hd64
  rcases Nat.eq_zero_or_pos p with hp | hp
  · subst hp
    simp [roundQ_zero]
  have hpq : (1 : ℚ) ≤ (p : ℚ) := by exact_mod_cast hp
  have hdpos : (0 : ℚ) < (d : ℚ) := by linarith
  rcases lt_trichotomy n 0 with hn | hn | hn
  · have hm : (1 : ℚ) ≤ ((-n : ℤ) : ℚ) := by exact_mod_cast (by omega : 1 ≤ -n)
    have h := roundQ_chain_error (p : ℚ) (d : ℚ) ((-n : ℤ) : ℚ) hpq hdq hd64q hm
    have hE : 0 < (p : ℚ) / d * 100 * ((-n : ℤ) : ℚ) := by positivity
    have e1 : roundQ (n : ℚ) = -roundQ ((-n : ℤ) : ℚ) := by
      rw [Int.cast_neg, roundQ_neg, neg_neg]
    have e2 : (p : ℚ) / d * 100 * n = -((p : ℚ) / d * 100 * ((-n : ℤ) : ℚ)) := by
      push_cast
      ring
    rw [e1, mul_neg, roundQ_neg, e2, abs_neg, abs_of_pos hE, neg_sub_neg, abs_sub_comm]
    exact h
  · subst hn
    simp [roundQ_zero]
  · have hm : (1 : ℚ) ≤ (n : ℚ) := by exact_mod_cast (by omega : 1 ≤ n)
    have h := roundQ_chain_error (p : ℚ) (d : ℚ) (n : ℚ) hpq hdq hd64q hm
    have hE : 0 < (p : ℚ) / d * 100 * (n : ℚ) := by positivity
    rw [abs_of_pos hE]
    exact h

namespace CDouble

/-- The evaluation of the rounding of a positive exact result. -/
theorem round_eq_pos {x : ℚ} (e n : ℤ) (v : ℚ) (hx : 0 < x) (h1 : (2 : ℚ) ^ e ≤ x)
    (h2 : x < 2 ^ (e + 1)) (h3 : -1022 ≤ e) (h4 : (n : ℚ) - 1 / 2 < x / 2 ^ (e - 52))
    (h5 : x / 2 ^ (e - 52) < (n : ℚ) + 1 / 2) (hv : (n : ℚ) * 2 ^ (e - 52) = v)
    (hv0 : 0 ≤ v) (hhi : v < 2 ^ 1024) : round x = fin v := by
  apply round_eq e n v
  · rwa [abs_of_pos hx]
  · rwa [abs_of_pos hx]
  · exact h3
  · rw [abs_lt]
    constructor <;> linarith
  · exact hv
  · have : (0 : ℚ) < 2 ^ 1024 := by positivity
    linarith
  · exact hhi

/-- The evaluation of the rounding of a positive exact result that is a tie above an odd
multiple of the unit in the last place. -/
theorem round_tie_pos {x : ℚ} (e m : ℤ) (v : ℚ) (hx : 0 < x) (h1 : (2 : ℚ) ^ e ≤ x)
    (h2 : x < 2 ^ (e + 1)) (h3 : -1022 ≤ e) (h4 : x / 2 ^ (e - 52) = (m : ℚ) + 1 / 2)
    (hodd : m % 2 = 1) (hv : ((m + 1 : ℤ) : ℚ) * 2 ^ (e - 52) = v)
    (hv0 : 0 ≤ v) (hhi : v < 2 ^ 1024) : round x = fin v := by
  have hq : roundQ x = v := by
    rw [roundQ_tie e m (by rwa [abs_of_pos hx]) (by rwa [abs_of_pos hx]) h3 h4 hodd, hv]
  have hlo : ¬ v ≤ -(2 : ℚ) ^ 1024 := by
    intro h
    have : (0 : ℚ) < 2 ^ 1024 := by positivity
    linarith
  simp only [round, hq, if_neg (not_le.2 hhi), if_neg hlo]

theorem div_fin (a b : ℚ) (hb : b ≠ 0) : (fin a).div (fin b) = round (a / b) := by
  simp only [div, if_neg hb]

theorem mul_fin (a b : ℚ) : (fin a).mul (fin b) = round (a * b) := by
  simp only [mul]

end CDouble

/-! ## C1: a total-CPU-time delta of zero -/

/-- C1 (the code departs from it). With `/proc/stat` unchanged since the baseline `cpuTime` was
taken, the total-CPU-time delta is `0` and the division is carried out all the same: for a
process that did not run in between the result is `0.0 / 0.0`, a `NaN`, and for a process that
ran for one tick it is `+inf`. In neither case is the result `0`. -/
theorem calculateCPUPercentage_zero_delta :
    getTotalCpuTime (some "cpu  5100 0 0 0 0 0 0 0 0 0\n".toList) = 5100 ∧
    calculateCPUPercentage (some "cpu  5100 0 0 0 0 0 0 0 0 0\n".toList) 4 ⟨10, 5⟩ ⟨10, 5⟩ 5100
      = CDouble.nan ∧
    calculateCPUPercentage (some "cpu  5100 0 0 0 0 0 0 0 0 0\n".toList) 4 ⟨10, 5⟩ ⟨11, 5⟩ 5100
      = CDouble.pinf := by
  have hs : subULL 5100 5100 = 0 := by decide
  have hp0 : subULL (addULL 10 5) (addULL 10 5) = 0 := by decide
  have hp1 : subULL (addULL 11 5) (addULL 10 5) = 1 := by decide
  have h0 : CDouble.ofULL 0 = CDouble.fin 0 := by
    simpa using CDouble.ofULL_small 0 (by norm_num)
  have h1 : CDouble.ofULL 1 = CDouble.fin 1 := by
    simpa using CDouble.ofULL_small 1 (by norm_num)
  have h4 : CDouble.ofLong 4 = CDouble.fin 4 := by
    simpa using CDouble.ofLong_small 4 (by norm_num)
  refine ⟨getTotalCpuTime_sample, ?_, ?_⟩
  · simp only [calculateCPUPercentage, getTotalCpuTime_sample, hs, hp0, h0, h4]
    norm_num [CDouble.div, CDouble.mul]
  · simp only [calculateCPUPercentage, getTotalCpuTime_sample, hs, hp1, h0, h1, h4]
    norm_num [CDouble.div, CDouble.mul]

/-! ## C2: process counters that went down -/

/-- C2 (the code departs from it). The pid was reused between the two samples: the sum of the
process counters went from `15` down to `5` while the total went up by `100`. The unsigned
subtraction wraps to `2 ^ 64 - 10`, and that value reaches the result: converted to `double` it
is `2 ^ 64`, and the result is `2 ^ 66`, not `0`. -/
theorem calculateCPUPercentage_counter_reset :
    calculateCPUPercentage (some "cpu  5100 0 0 0 0 0 0 0 0 0\n".toList) 4 ⟨10, 5⟩ ⟨3, 2⟩ 5000
      = CDouble.fin (2 ^ 66) ∧
    calculateCPUPercentage (some "cpu  5100 0 0 0 0 0 0 0 0 0\n".toList) 4 ⟨10, 5⟩ ⟨3, 2⟩ 5000
      ≠ CDouble.fin 0 := by
  have hs : subULL 5100 5000 = 100 := by decide
  have hp : subULL (addULL 3 2) (addULL 10 5) = 18446744073709551606 := by decide
  have hP : CDouble.ofULL 18446744073709551606 = CDouble.fin 18446744073709551616 := by
    unfold CDouble.ofULL
    rw [Nat.cast_ofNat]
    exact CDouble.round_eq_pos 63 9007199254740992 18446744073709551616 (by norm_num)
      (by norm_num) (by norm_num) (by norm_num) (by norm_num) (by norm_num) (by norm_num)
      (by norm_num) (by norm_num)
  have hD : CDouble.ofULL 100 = CDouble.fin 100 := by
    simpa using CDouble.ofULL_small 100 (by norm_num)
  have h4 : CDouble.ofLong 4 = CDouble.fin 4 := by
    simpa using CDouble.ofLong_small 4 (by norm_num)
  have hQ : CDouble.round (18446744073709551616 / 100) = CDouble.fin 184467440737095520 :=
    CDouble.round_eq_pos 57 5764607523034235 184467440737095520 (by norm_num) (by norm_num)
      (by norm_num) (by norm_num) (by norm_num) (by norm_num) (by norm_num) (by norm_num)
      (by norm_num)
  have hX : CDouble.round (184467440737095520 * 100) = CDouble.fin 18446744073709551616 :=
    CDouble.round_eq_pos 64 4503599627370496 18446744073709551616 (by norm_num) (by norm_num)
      (by norm_num) (by norm_num) (by norm_num) (by norm_num) (by norm_num) (by norm_num)
      (by norm_num)
  have hR : CDouble.round (18446744073709551616 * 4) = CDouble.fin (2 ^ 66) :=
    CDouble.round_eq_pos 66 4503599627370496 (2 ^ 66) (by norm_num) (by norm_num)
      (by norm_num) (by norm_num) (by norm_num) (by norm_num) (by norm_num) (by norm_num)
      (by norm_num)
  have hu : calculateCPUPercentage (some "cpu  5100 0 0 0 0 0 0 0 0 0\n".toList) 4 ⟨10, 5⟩
      ⟨3, 2⟩ 5000
      = (((CDouble.ofULL 18446744073709551606).div (CDouble.ofULL 100)).mul
          (CDouble.fin 100)).mul (CDouble.ofLong 4) := by
    simp only [calculateCPUPercentage, getTotalCpuTime_sample, hs, hp]
  have h : calculateCPUPercentage (some "cpu  5100 0 0 0 0 0 0 0 0 0\n".toList) 4 ⟨10, 5⟩ ⟨3, 2⟩
      5000 = CDouble.fin (2 ^ 66) := by
    rw [hu, hP, hD, h4, CDouble.div_fin _ _ (by norm_num), hQ, CDouble.mul_fin, hX,
      CDouble.mul_fin, hR]
  refine ⟨h, ?_⟩
  rw [h]
  intro h0
  injection h0 with h0
  norm_num at h0


/-! ## C3: range of the CPU percentage -/

/-- C3, as stated, fails, in two ways. With non-negative inputs, a total-CPU-time delta of `100`,
one processor and a process delta of `200`, the result is `200`, above `100 * 1`. And with a
process delta equal to the total delta, `100`, and `360287970189643` processors, the last
multiplication rounds `36028797018964300` up to the next `double`, `36028797018964304`, above
`100 * 360287970189643`. -/
theorem calculateCPUPercentage_range_counterexample :
    (¬ ∃ q : ℚ, calculateCPUPercentage (some "cpu  5100 0 0 0 0 0 0 0 0 0\n".toList) 1
        ⟨10, 5⟩ ⟨210, 5⟩ 5000 = CDouble.fin q ∧ 0 ≤ q ∧ q ≤ 100 * 1) ∧
    (¬ ∃ q : ℚ, calculateCPUPercentage (some "cpu  5100 0 0 0 0 0 0 0 0 0\n".toList)
        360287970189643 ⟨10, 5⟩ ⟨110, 5⟩ 5000 = CDouble.fin q ∧
          0 ≤ q ∧ q ≤ 100 * 360287970189643) := by
  have hs : subULL 5100 5000 = 100 := by decide
  have hp1 : subULL (addULL 210 5) (addULL 10 5) = 200 := by decide
  have hp2 : subULL (addULL 110 5) (addULL 10 5) = 100 := by decide
  have h100 : CDouble.ofULL 100 = CDouble.fin 100 := by
    simpa using CDouble.ofULL_small 100 (by norm_num)
  have h200 : CDouble.ofULL 200 = CDouble.fin 200 := by
    simpa using CDouble.ofULL_small 200 (by norm_num)
  have hn1 : CDouble.ofLong 1 = CDouble.fin 1 := by
    simpa using CDouble.ofLong_small 1 (by norm_num)
  have hn2 : CDouble.ofLong 360287970189643 = CDouble.fin 360287970189643 := by
    have h := CDouble.ofLong_small 360287970189643 (by norm_num)
    rw [Nat.cast_ofNat, Nat.cast_ofNat] at h
    exact h
  have hQ1 : CDouble.round (200 / 100) = CDouble.fin 2 := by
    have h := CDouble.round_natCast 2 (by norm_num)
    norm_num at h ⊢
    exact h
  have hX1 : CDouble.round (2 * 100) = CDouble.fin 200 := by
    have h := CDouble.round_natCast 200 (by norm_num)
    norm_num at h ⊢
    exact h
  have hR1 : CDouble.round (200 * 1) = CDouble.fin 200 := by
    have h := CDouble.round_natCast 200 (by norm_num)
    norm_num at h ⊢
    exact h
  have hQ2 : CDouble.round (100 / 100) = CDouble.fin 1 := by
    have h := CDouble.round_natCast 1 (by norm_num)
    norm_num at h ⊢
    exact h
  have hX2 : CDouble.round (1 * 100) = CDouble.fin 100 := by
    have h := CDouble.round_natCast 100 (by norm_num)
    norm_num at h ⊢
    exact h
  have hR2 : CDouble.round (100 * 360287970189643) = CDouble.fin 36028797018964304 :=
    CDouble.round_tie_pos 55 4503599627370537 36028797018964304 (by norm_num) (by norm_num)
      (by norm_num) (by norm_num) (by norm_num) (by norm_num) (by norm_num) (by norm_num)
      (by norm_num)
  have hu1 : calculateCPUPercentage (some "cpu  5100 0 0 0 0 0 0 0 0 0\n".toList) 1 ⟨10, 5⟩
      ⟨210, 5⟩ 5000
      = (((CDouble.ofULL 200).div (CDouble.ofULL 100)).mul (CDouble.fin 100)).mul
          (CDouble.ofLong 1) := by
    simp only [calculateCPUPercentage, getTotalCpuTime_sample, hs, hp1]
  have hu2 : calculateCPUPercentage (some "cpu  5100 0 0 0 0 0 0 0 0 0\n".toList)
      360287970189643 ⟨10, 5⟩ ⟨110, 5⟩ 5000
      = (((CDouble.ofULL 100).div (CDouble.ofULL 100)).mul (CDouble.fin 100)).mul
          (CDouble.ofLong 360287970189643) := by
    simp only [calculateCPUPercentage, getTotalCpuTime_sample, hs, hp2]
  have h1 : calculateCPUPercentage (some "cpu  5100 0 0 0 0 0 0 0 0 0\n".toList) 1 ⟨10, 5⟩
      ⟨210, 5⟩ 5000 = CDouble.fin 200 := by
    rw [hu1, h200, h100, hn1, CDouble.div_fin _ _ (by norm_num), hQ1, CDouble.mul_fin, hX1,
      CDouble.mul_fin, hR1]
  have h2 : calculateCPUPercentage (some "cpu  5100 0 0 0 0 0 0 0 0 0\n".toList)
      360287970189643 ⟨10, 5⟩ ⟨110, 5⟩ 5000 = CDouble.fin 36028797018964304 := by
    rw [hu2, h100, hn2, CDouble.div_fin _ _ (by norm_num), hQ2, CDouble.mul_fin, hX2,
      CDouble.mul_fin, hR2]
  constructor
  · rintro ⟨q, hq, -, hle⟩
    rw [h1] at hq
    injection hq with hq
    rw [← hq] at hle
    norm_num at hle
  · rintro ⟨q, hq, -, hle⟩
    rw [h2] at hq
    injection hq with hq
    rw [← hq] at hle
    norm_num at hle

/-- C3, amended. When the core count is non-negative and at most `2 ^ 53 / 25` (about
`3.6 * 10 ^ 14`), the total-CPU-time delta is positive, the process counters did not go down and
the process delta is at most the total delta, the result is a finite value in the closed interval
from `0` to `100 * coreCount`: no rounding of the `double` arithmetic leaves the interval. -/
theorem calculateCPUPercentage_range (stat : Option (List Char)) (nproc : Int)
    (before after : proc_t) (cpuTime : Nat)
    (hn : 0 ≤ nproc) (hn53 : 25 * nproc ≤ 2 ^ 53)
    (hcpu : cpuTime < getTotalCpuTime stat)
    (hproc : addULL before.utime before.stime ≤ addULL after.utime after.stime)
    (hle : addULL after.utime after.stime - addULL before.utime before.stime
      ≤ getTotalCpuTime stat - cpuTime) :
    ∃ q : ℚ, calculateCPUPercentage stat nproc before after cpuTime = CDouble.fin q ∧
      0 ≤ q ∧ q ≤ 100 * (nproc : ℚ) := by
  have hchain := calculateCPUPercentage_chain stat nproc before after cpuTime hproc hcpu
    (by omega) (by omega)
  have hd1N : 1 ≤ getTotalCpuTime stat - cpuTime := by omega
  generalize addULL after.utime after.stime - addULL before.utime before.stime = p at *
  generalize getTotalCpuTime stat - cpuTime = d at *
  obtain ⟨k, rfl⟩ := Int.eq_ofNat_of_zero_le hn
  have hk : 25 * k ≤ 2 ^ 53 := by exact_mod_cast hn53
  have hp0 : (0 : ℚ) ≤ (p : ℚ) := by positivity
  have hpd : (p : ℚ) ≤ (d : ℚ) := by exact_mod_cast hle
  have hd1 : (1 : ℚ) ≤ (d : ℚ) := by exact_mod_cast hd1N
  have hP0 := roundQ_nonneg hp0
  have hPD := roundQ_mono hp0 hpd
  have hD1 := one_le_roundQ hd1
  have hDpos : (0 : ℚ) < roundQ (d : ℚ) := by linarith
  have hq0 : (0 : ℚ) ≤ roundQ (p : ℚ) / roundQ (d : ℚ) := div_nonneg hP0 hDpos.le
  have hq1 : roundQ (p : ℚ) / roundQ (d : ℚ) ≤ ((1 : ℕ) : ℚ) := by
    rw [Nat.cast_one]
    exact (div_le_one hDpos).2 hPD
  have hQ0 := roundQ_nonneg hq0
  have hQ1 := roundQ_mono hq0 hq1
  rw [roundQ_natCast 1 (by norm_num), Nat.cast_one] at hQ1
  have hc0 : (0 : ℚ) ≤ roundQ (roundQ (p : ℚ) / roundQ (d : ℚ)) * 100 := by positivity
  have hc1 : roundQ (roundQ (p : ℚ) / roundQ (d : ℚ)) * 100 ≤ ((100 : ℕ) : ℚ) := by
    rw [Nat.cast_ofNat]
    linarith
  have hX0 := roundQ_nonneg hc0
  have hX1 := roundQ_mono hc0 hc1
  rw [roundQ_natCast 100 (by norm_num), Nat.cast_ofNat] at hX1
  have hN : roundQ (((k : ℕ) : ℤ) : ℚ) = (k : ℚ) := by
    rw [Int.cast_natCast]
    exact roundQ_natCast k (by omega)
  have hk0 : (0 : ℚ) ≤ (k : ℚ) := by positivity
  have hm0 : (0 : ℚ) ≤ roundQ (roundQ (roundQ (p : ℚ) / roundQ (d : ℚ)) * 100) * (k : ℚ) :=
    mul_nonneg hX0 hk0
  have hm1 : roundQ (roundQ (roundQ (p : ℚ) / roundQ (d : ℚ)) * 100) * (k : ℚ)
      ≤ 100 * (k : ℚ) := mul_le_mul_of_nonneg_right hX1 hk0
  have hlast : roundQ (100 * (k : ℚ)) = 100 * (k : ℚ) := by
    rcases Nat.eq_zero_or_pos k with h0 | hpos
    · subst h0
      simpa using roundQ_zero
    · have h25 : (1 : ℚ) ≤ ((25 * k : ℕ) : ℚ) := by exact_mod_cast (by omega : 1 ≤ 25 * k)
      have hnorm : ∀ {x : ℚ}, 1 ≤ x → (2 : ℚ) ^ (-1022 : ℤ) ≤ |x| := fun h => by
        rw [abs_of_nonneg (by linarith)]
        exact normal_of_le (le_trans (by norm_num) h)
      have e : (100 : ℚ) * (k : ℚ) = ((25 * k : ℕ) : ℚ) * 2 * 2 := by
        push_cast
        ring
      rw [e, roundQ_mul_two (hnorm (by linarith)), roundQ_mul_two (hnorm h25),
        roundQ_natCast (25 * k) hk]
  refine ⟨_, hchain, ?_, ?_⟩
  · rw [hN]
    exact roundQ_nonneg hm0
  · rw [hN, Int.cast_natCast, ← hlast]
    exact roundQ_mono hm0 hm1

/-- Witness of `calculateCPUPercentage_range`: a process that used `50` of `100` ticks on four
processors. -/
theorem calculateCPUPercentage_range_witness :
    (0 : Int) ≤ 4 ∧ (25 : Int) * 4 ≤ 2 ^ 53 ∧
    5000 < getTotalCpuTime (some "cpu  5100 0 0 0 0 0 0 0 0 0\n".toList) ∧
    addULL 10 5 ≤ addULL 50 15 ∧
    addULL 50 15 - addULL 10 5
      ≤ getTotalCpuTime (some "cpu  5100 0 0 0 0 0 0 0 0 0\n".toList) - 5000 ∧
    ∃ q : ℚ, calculateCPUPercentage (some "cpu  5100 0 0 0 0 0 0 0 0 0\n".toList) 4
        ⟨10, 5⟩ ⟨50, 15⟩ 5000 = CDouble.fin q ∧ 0 ≤ q ∧ q ≤ 100 * ((4 : Int) : ℚ) :=
  ⟨by decide, by decide, by decide, by decide, by decide,
    calculateCPUPercentage_range (some "cpu  5100 0 0 0 0 0 0 0 0 0\n".toList) 4
      ⟨10, 5⟩ ⟨50, 15⟩ 5000 (by decide) (by decide) (by decide) (by decide) (by decide)⟩

/-! ## C4: the value of the CPU percentage -/

/-- C4, as stated, fails: the arithmetic is that of `double`, and each of its steps rounds. With
a process delta of `1`, a total-CPU-time delta of `3` and four processors, both hypotheses of the
claim hold and the result is the `double` `2345624805922133 / 2 ^ 44`, printed
`133.33333333333331`, which is not the exact rational `1 / 3 * 100 * 4`. -/
theorem calculateCPUPercentage_eq_ratio_counterexample :
    addULL 0 0 ≤ addULL 1 0 ∧
    5097 < getTotalCpuTime (some "cpu  5100 0 0 0 0 0 0 0 0 0\n".toList) ∧
    calculateCPUPercentage (some "cpu  5100 0 0 0 0 0 0 0 0 0\n".toList) 4 ⟨0, 0⟩ ⟨1, 0⟩ 5097
      = CDouble.fin (2345624805922133 / 2 ^ 44) ∧
    calculateCPUPercentage (some "cpu  5100 0 0 0 0 0 0 0 0 0\n".toList) 4 ⟨0, 0⟩ ⟨1, 0⟩ 5097
      ≠ CDouble.fin ((((addULL 1 0 : ℚ) - (addULL 0 0 : ℚ))
        / ((getTotalCpuTime (some "cpu  5100 0 0 0 0 0 0 0 0 0\n".toList) : ℚ)
          - ((5097 : Nat) : ℚ))) * 100 * ((4 : Int) : ℚ)) := by
  have hs : subULL 5100 5097 = 3 := by decide
  have hp : subULL (addULL 1 0) (addULL 0 0) = 1 := by decide
  have ha1 : addULL 1 0 = 1 := by decide
  have ha0 : addULL 0 0 = 0 := by decide
  have h1 : CDouble.ofULL 1 = CDouble.fin 1 := by
    simpa using CDouble.ofULL_small 1 (by norm_num)
  have h3 : CDouble.ofULL 3 = CDouble.fin 3 := by
    simpa using CDouble.ofULL_small 3 (by norm_num)
  have h4 : CDouble.ofLong 4 = CDouble.fin 4 := by
    simpa using CDouble.ofLong_small 4 (by norm_num)
  have hQ : CDouble.round (1 / 3) = CDouble.fin (6004799503160661 / 2 ^ 54) :=
    CDouble.round_eq_pos (-2) 6004799503160661 (6004799503160661 / 2 ^ 54) (by norm_num)
      (by norm_num) (by norm_num) (by norm_num) (by norm_num) (by norm_num) (by norm_num)
      (by norm_num) (by norm_num)
  have hX : CDouble.round (6004799503160661 / 2 ^ 54 * 100)
      = CDouble.fin (2345624805922133 / 2 ^ 46) :=
    CDouble.round_eq_pos 5 4691249611844266 (2345624805922133 / 2 ^ 46) (by norm_num)
      (by norm_num) (by norm_num) (by norm_num) (by norm_num) (by norm_num) (by norm_num)
      (by norm_num) (by norm_num)
  have hR : CDouble.round (2345624805922133 / 2 ^ 46 * 4)
      = CDouble.fin (2345624805922133 / 2 ^ 44) :=
    CDouble.round_eq_pos 7 4691249611844266 (2345624805922133 / 2 ^ 44) (by norm_num)
      (by norm_num) (by norm_num) (by norm_num) (by norm_num) (by norm_num) (by norm_num)
      (by norm_num) (by norm_num)
  have hu : calculateCPUPercentage (some "cpu  5100 0 0 0 0 0 0 0 0 0\n".toList) 4 ⟨0, 0⟩
      ⟨1, 0⟩ 5097
      = (((CDouble.ofULL 1).div (CDouble.ofULL 3)).mul (CDouble.fin 100)).mul
          (CDouble.ofLong 4) := by
    simp only [calculateCPUPercentage, getTotalCpuTime_sample, hs, hp]
  have h : calculateCPUPercentage (some "cpu  5100 0 0 0 0 0 0 0 0 0\n".toList) 4 ⟨0, 0⟩
      ⟨1, 0⟩ 5097 = CDouble.fin (2345624805922133 / 2 ^ 44) := by
    rw [hu, h1, h3, h4, CDouble.div_fin _ _ (by norm_num), hQ, CDouble.mul_fin, hX,
      CDouble.mul_fin, hR]
  refine ⟨by decide, by decide, h, ?_⟩
  rw [h, getTotalCpuTime_sample, ha1, ha0]
  intro h0
  injection h0 with h0
  norm_num at h0

/-- C4, amended. When the 64-bit sum `utime + stime` of the later sample is at least that of the
earlier one, the total-CPU-time delta `D` (the current total minus `cpuTime`) is positive and the
core count is a `long`, the result is a finite `double` whose distance from the exact rational
`E`, the process delta divided by `D`, times `100`, times the core count, is at most
`|E| / 2 ^ 50`: the core count multiplies the ratio, up to the seven roundings of the `double`
arithmetic. -/
theorem calculateCPUPercentage_near_ratio (stat : Option (List Char)) (nproc : Int)
    (before after : proc_t) (cpuTime : Nat)
    (hproc : addULL before.utime before.stime ≤ addULL after.utime after.stime)
    (hcpu : cpuTime < getTotalCpuTime stat)
    (hn0 : -2 ^ 63 ≤ nproc) (hn1 : nproc < 2 ^ 63) :
    ∃ q : ℚ, calculateCPUPercentage stat nproc before after cpuTime = CDouble.fin q ∧
      |q - (((addULL after.utime after.stime : ℚ) - (addULL before.utime before.stime : ℚ))
          / ((getTotalCpuTime stat : ℚ) - (cpuTime : ℚ))) * 100 * (nproc : ℚ)|
        ≤ |(((addULL after.utime after.stime : ℚ) - (addULL before.utime before.stime : ℚ))
          / ((getTotalCpuTime stat : ℚ) - (cpuTime : ℚ))) * 100 * (nproc : ℚ)| / 2 ^ 50 := by
  have hchain := calculateCPUPercentage_chain stat nproc before after cpuTime hproc hcpu hn0 hn1
  have hd1 : 1 ≤ getTotalCpuTime stat - cpuTime := by omega
  have hd64 : getTotalCpuTime stat - cpuTime ≤ 2 ^ 64 := by
    have := getTotalCpuTime_lt stat
    unfold ULL at this
    omega
  have h := roundQ_chain_near
    (addULL after.utime after.stime - addULL before.utime before.stime)
    (getTotalCpuTime stat - cpuTime) nproc hd1 hd64
  rw [Nat.cast_sub hproc, Nat.cast_sub (le_of_lt hcpu)] at h
  rw [Nat.cast_sub hproc, Nat.cast_sub (le_of_lt hcpu)] at hchain
  exact ⟨_, hchain, h⟩

/-- Witness of `calculateCPUPercentage_near_ratio`: one tick of three on four processors. -/
theorem calculateCPUPercentage_near_ratio_witness :
    addULL 0 0 ≤ addULL 1 0 ∧
    5097 < getTotalCpuTime (some "cpu  5100 0 0 0 0 0 0 0 0 0\n".toList) ∧
    (-2 ^ 63 : Int) ≤ 4 ∧ (4 : Int) < 2 ^ 63 ∧
    ∃ q : ℚ, calculateCPUPercentage (some "cpu  5100 0 0 0 0 0 0 0 0 0\n".toList) 4
        ⟨0, 0⟩ ⟨1, 0⟩ 5097 = CDouble.fin q ∧
      |q - (((addULL 1 0 : ℚ) - (addULL 0 0 : ℚ))
          / ((getTotalCpuTime (some "cpu  5100 0 0 0 0 0 0 0 0 0\n".toList) : ℚ)
            - ((5097 : Nat) : ℚ))) * 100 * ((4 : Int) : ℚ)|
        ≤ |(((addULL 1 0 : ℚ) - (addULL 0 0 : ℚ))
          / ((getTotalCpuTime (some "cpu  5100 0 0 0 0 0 0 0 0 0\n".toList) : ℚ)
            - ((5097 : Nat) : ℚ))) * 100 * ((4 : Int) : ℚ)| / 2 ^ 50 :=
  ⟨by decide, by decide, by decide, by decide,
    calculateCPUPercentage_near_ratio (some "cpu  5100 0 0 0 0 0 0 0 0 0\n".toList) 4
      ⟨0, 0⟩ ⟨1, 0⟩ 5097 (by decide) (by decide) (by decide) (by decide)⟩

/-! ## C5: the total of the counter line -/

/-- C5, as stated, fails, in two ways. A field of 17 digits, a value below `2 ^ 64`, is cut after
16 digits by the conversion `%16llu` and its last digit is read as the next counter, so the total
is `1234567890123456 + 7` and not `12345678901234567`. And when `1020` spaces stand in front of
the first field, the `1022` characters that `fgets` reads hold no digit, so the total is `0` and
not the sum `36` of the first eight fields. -/
theorem getTotalCpuTime_counterLine_counterexample :
    (decimalValue "12345678901234567".toList < ULL ∧
      getTotalCpuTime (some (counterLine [(1, "12345678901234567".toList), (1, "0".toList),
        (1, "0".toList), (1, "0".toList), (1, "0".toList), (1, "0".toList), (1, "0".toList),
        (1, "0".toList), (1, "0".toList), (1, "0".toList)]))
      ≠ (decimalValue "12345678901234567".toList + decimalValue "0".toList
          + decimalValue "0".toList + decimalValue "0".toList + decimalValue "0".toList
          + decimalValue "0".toList + decimalValue "0".toList + decimalValue "0".toList) % ULL) ∧
    getTotalCpuTime (some (counterLine [(1020, "1".toList), (1, "2".toList), (1, "3".toList),
        (1, "4".toList), (1, "5".toList), (1, "6".toList), (1, "7".toList), (1, "8".toList),
        (1, "9".toList), (1, "10".toList)] ++ "\n".toList))
      ≠ (decimalValue "1".toList + decimalValue "2".toList + decimalValue "3".toList
          + decimalValue "4".toList + decimalValue "5".toList + decimalValue "6".toList
          + decimalValue "7".toList + decimalValue "8".toList) % ULL := by
  refine ⟨by decide, ?_⟩
  have h := getTotalCpuTime_long_gap 1019 1 rfl ("1".toList ++ ((([(1, "2".toList), (1, "3".toList),
    (1, "4".toList), (1, "5".toList), (1, "6".toList), (1, "7".toList), (1, "8".toList),
    (1, "9".toList), (1, "10".toList)] : List (Nat × List Char)).map
      fun p => List.replicate p.1 ' ' ++ p.2).flatten ++ "\n".toList))
  have hshape : counterLine [(1020, "1".toList), (1, "2".toList), (1, "3".toList),
      (1, "4".toList), (1, "5".toList), (1, "6".toList), (1, "7".toList), (1, "8".toList),
      (1, "9".toList), (1, "10".toList)] ++ "\n".toList
      = "cpu".toList ++ (List.replicate (1019 + 1) ' ' ++ ("1".toList
          ++ ((([(1, "2".toList), (1, "3".toList), (1, "4".toList), (1, "5".toList),
            (1, "6".toList), (1, "7".toList), (1, "8".toList), (1, "9".toList),
            (1, "10".toList)] : List (Nat × List Char)).map
              fun p => List.replicate p.1 ' ' ++ p.2).flatten ++ "\n".toList))) := by
    unfold counterLine
    rw [List.map_cons, List.flatten_cons, List.append_assoc, List.append_assoc,
      List.append_assoc]
  rw [hshape, h]
  decide

/-- C5, amended. For a file that starts with `cpu` and ten counter fields of at most 16 decimal
digits each, every field with one or more spaces in front of it and the line so far no longer
than the `1022` characters that `fgets` reads, the total is the sum, modulo `2 ^ 64`, of the
values of the first eight fields: `guest` and `guestnice` are not added. What follows the tenth
field does not matter. -/
theorem getTotalCpuTime_counterLine (fields : List (Nat × List Char)) (rest : List Char)
    (hlen : fields.length = 10)
    (hf : ∀ p ∈ fields, 0 < p.1 ∧ counterField 16 p.2)
    (hfit : (counterLine fields).length ≤ 1022) :
    getTotalCpuTime (some (counterLine fields ++ rest))
      = ((fields.take 8).map fun p => decimalValue p.2).sum % ULL := by
  have hplain := counterLine_plain fields (fun p hp => (hf p hp).2)
  obtain ⟨j, hj⟩ : ∃ j, 1023 = (counterLine fields).length + (j + 1) :=
    ⟨1022 - (counterLine fields).length, by omega⟩
  have hbuf : fgets 1023 (counterLine fields ++ rest)
      = counterLine fields ++ fgets (j + 1) rest := by
    rw [hj, fgets_append rest _ j (fun ch hch => (hplain ch hch).1)]
  have hc : cString (counterLine fields ++ fgets (j + 1) rest)
      = counterLine fields ++ cString (fgets (j + 1) rest) :=
    cString_append _ _ (fun ch hch => (hplain ch hch).2)
  obtain ⟨p1, p2, p3, p4, p5, p6, p7, p8, p9, p10, rfl⟩ := length_eq_ten fields hlen
  obtain ⟨n9, hn9⟩ : ∃ n, p9.1 = n + 1 := ⟨p9.1 - 1, by
    have := (hf p9 (by simp)).1
    omega⟩
  have hall : ∀ p ∈ [p1, p2, p3, p4, p5, p6, p7, p8], 0 < p.1 ∧ counterField 16 p.2 := by
    intro p hp
    apply hf p
    simp only [List.mem_cons, List.mem_singleton, List.not_mem_nil, or_false] at hp ⊢
    tauto
  have hscan := scanFields_fields
    (List.replicate n9 ' ' ++ (p9.2 ++ (List.replicate p10.1 ' ' ++ (p10.2
      ++ cString (fgets (j + 1) rest)))))
    [p1, p2, p3, p4, p5, p6, p7, p8] 2 hall
  have hline : counterLine [p1, p2, p3, p4, p5, p6, p7, p8, p9, p10]
        ++ cString (fgets (j + 1) rest)
      = 'c' :: 'p' :: 'u' :: (([p1, p2, p3, p4, p5, p6, p7, p8].map
          fun p => List.replicate p.1 ' ' ++ p.2).flatten
        ++ ' ' :: (List.replicate n9 ' ' ++ (p9.2 ++ (List.replicate p10.1 ' ' ++ (p10.2
          ++ cString (fgets (j + 1) rest)))))) := by
    simp only [counterLine, List.map_cons, List.map_nil, List.flatten_cons, List.flatten_nil,
      hn9, List.replicate_succ, List.append_assoc, List.cons_append, List.append_nil]
    rfl
  have hfg : ∃ b bs, counterLine [p1, p2, p3, p4, p5, p6, p7, p8, p9, p10]
      ++ fgets (j + 1) rest = b :: bs := ⟨'c', _, rfl⟩
  obtain ⟨b, bs, hfg⟩ := hfg
  rw [hfg] at hc
  rw [hline] at hc
  unfold getTotalCpuTime
  simp only []
  rw [hbuf, hfg]
  simp only [hc, matchLiteral, if_true]
  have h10 : (10 : Nat) = [p1, p2, p3, p4, p5, p6, p7, p8].length + 2 := rfl
  rw [h10, hscan]
  simp only [List.map_cons, List.map_nil, List.cons_append, List.nil_append, List.getD_cons_zero,
    List.getD_cons_succ, addULL_mod_left, addULL_mod_right, addULL_addULL, List.take_succ_cons,
    List.take_zero, List.sum_cons, List.sum_nil]
  unfold addULL
  congr 1
  omega

/-- Witness of `getTotalCpuTime_counterLine`: the line `cpu  5100 1 2 3 4 5 6 7 8 9`, with the
two spaces that `/proc/stat` has after `cpu`. -/
theorem getTotalCpuTime_counterLine_witness :
    ([(2, "5100".toList), (1, "1".toList), (1, "2".toList), (1, "3".toList), (1, "4".toList),
      (1, "5".toList), (1, "6".toList), (1, "7".toList), (1, "8".toList),
      (1, "9".toList)] : List (Nat × List Char)).length = 10 ∧
    (∀ p ∈ ([(2, "5100".toList), (1, "1".toList), (1, "2".toList), (1, "3".toList),
      (1, "4".toList), (1, "5".toList), (1, "6".toList), (1, "7".toList), (1, "8".toList),
      (1, "9".toList)] : List (Nat × List Char)), 0 < p.1 ∧ counterField 16 p.2) ∧
    (counterLine [(2, "5100".toList), (1, "1".toList), (1, "2".toList), (1, "3".toList),
      (1, "4".toList), (1, "5".toList), (1, "6".toList), (1, "7".toList), (1, "8".toList),
      (1, "9".toList)]).length ≤ 1022 ∧
    getTotalCpuTime (some (counterLine [(2, "5100".toList), (1, "1".toList), (1, "2".toList),
      (1, "3".toList), (1, "4".toList), (1, "5".toList), (1, "6".toList), (1, "7".toList),
      (1, "8".toList), (1, "9".toList)] ++ "\n".toList))
      = ((([(2, "5100".toList), (1, "1".toList), (1, "2".toList), (1, "3".toList),
        (1, "4".toList), (1, "5".toList), (1, "6".toList), (1, "7".toList), (1, "8".toList),
        (1, "9".toList)] : List (Nat × List Char)).take 8).map
          fun p => decimalValue p.2).sum % ULL :=
  ⟨by decide, by decide, by decide,
    getTotalCpuTime_counterLine _ _ (by decide) (by decide) (by decide)⟩

/-! ## C6 and C7: interpreters -/

theorem explode_nil (c : Char) : explode [] c = [] := rfl

/-- C6. When the command line splits on spaces into at least two tokens and the base filename
of the first token is one of `python`, `python3`, `ruby`, `php`, `perl`, the result is the base
filename of the second token. -/
theorem getProcessNameFromCmdLine_interpreter (cmdlineFile : Option (List Char))
    (arg0 arg1 : List Char) (more : List (List Char))
    (hargs : explode (replace (getProcessCmdline cmdlineFile) '\\' '/') ' '
      = arg0 :: arg1 :: more)
    (hname : fileName arg0 ∈ nameMap) :
    getProcessNameFromCmdLine cmdlineFile = some (fileName arg1) := by
  have hlen : ¬ (getProcessCmdline cmdlineFile).length < 1 := by
    intro h
    have h0 : getProcessCmdline cmdlineFile = [] := by
      cases hc : getProcessCmdline cmdlineFile with
      | nil => rfl
      | cons a l => rw [hc] at h; simp at h
    rw [h0] at hargs
    exact absurd hargs (by simp [replace, explode_nil])
  simp only [getProcessNameFromCmdLine, if_neg hlen, hargs, List.getElem?_cons_zero,
    List.getElem?_cons_succ, if_pos hname]

/-- Witness of `getProcessNameFromCmdLine_interpreter`: the command line
`/usr/bin/python3 /opt/app/run.py --flag` yields `run.py`. -/
theorem getProcessNameFromCmdLine_interpreter_witness :
    explode (replace (getProcessCmdline
        (some "/usr/bin/python3\x00/opt/app/run.py\x00--flag\x00".toList)) '\\' '/') ' '
      = "/usr/bin/python3".toList :: "/opt/app/run.py".toList :: ["--flag".toList] ∧
    fileName "/usr/bin/python3".toList ∈ nameMap ∧
    getProcessCmdline (some "/usr/bin/python3\x00/opt/app/run.py\x00--flag\x00".toList)
      = "/usr/bin/python3 /opt/app/run.py --flag ".toList ∧
    getProcessNameFromCmdLine (some "/usr/bin/python3\x00/opt/app/run.py\x00--flag\x00".toList)
      = some "run.py".toList :=
  ⟨by decide, by decide, by decide,
    (getProcessNameFromCmdLine_interpreter
      (some "/usr/bin/python3\x00/opt/app/run.py\x00--flag\x00".toList)
      "/usr/bin/python3".toList "/opt/app/run.py".toList ["--flag".toList]
      (by decide) (by decide)).trans (by decide)⟩

/-- C7 (the code departs from it). The command line of `/usr/bin/python3` started without an
argument splits into the single token `/usr/bin/python3`, whose base filename `python3` is in
`nameMap`; the code then reads `args[1]` with no test of the number of tokens, past the end of
the vector, and does not return `python3`. -/
theorem getProcessNameFromCmdLine_single_interpreter :
    explode (replace (getProcessCmdline (some "/usr/bin/python3\x00".toList)) '\\' '/') ' '
      = ["/usr/bin/python3".toList] ∧
    fileName "/usr/bin/python3".toList = "python3".toList ∧
    getProcessNameFromCmdLine (some "/usr/bin/python3\x00".toList) = none ∧
    getProcessNameFromCmdLine (some "/usr/bin/python3".toList) = none := by
  decide


/-! ## Lines of a descriptor -/

theorem readLines_oneLine : ∀ l : List Char, oneLine l → readLines l = [l] := by
  intro l
  induction l with
  | nil => intro _; rfl
  | cons c cs ih =>
    intro h
    have hc : c ≠ '\n' := fun hc => h (hc ▸ List.mem_cons_self _ _)
    have hcs : oneLine cs := fun hm => h (List.mem_cons_of_mem _ hm)
    rw [readLines, if_neg hc, ih hcs]

theorem readLines_append_newline (rest : List Char) :
    ∀ l : List Char, oneLine l → readLines (l ++ '\n' :: rest) = l :: readLines rest := by
  intro l
  induction l with
  | nil => intro _; simp [readLines]
  | cons c cs ih =>
    intro h
    have hc : c ≠ '\n' := fun hc => h (hc ▸ List.mem_cons_self _ _)
    have hcs : oneLine cs := fun hm => h (List.mem_cons_of_mem _ hm)
    show readLines (c :: (cs ++ '\n' :: rest)) = (c :: cs) :: readLines rest
    rw [readLines, if_neg hc, ih hcs]

theorem readLines_joinLines :
    ∀ ls : List (List Char), ls ≠ [] → (∀ l ∈ ls, oneLine l) → readLines (joinLines ls) = ls := by
  intro ls
  induction ls with
  | nil => intro h _; exact absurd rfl h
  | cons l ls ih =>
    intro _ hall
    have hl : oneLine l := hall l (List.mem_cons_self _ _)
    cases ls with
    | nil => exact readLines_oneLine l hl
    | cons l2 ls2 =>
      show readLines (l ++ '\n' :: joinLines (l2 :: ls2)) = l :: l2 :: ls2
      rw [readLines_append_newline _ l hl,
        ih (List.cons_ne_nil _ _) (fun x hx => hall x (List.mem_cons_of_mem _ hx))]

theorem startsWith_append (p s : List Char) : startsWith (p ++ s) p = true := by
  induction p with
  | nil => cases s <;> rfl
  | cons c cs ih => simp [startsWith, ih]

theorem startsWith_generic_local (locale g : List Char) :
    startsWith (genericNameFlag locale ++ g) (localNameFlag locale) = false := by
  simp [genericNameFlag, localNameFlag, startsWith]

theorem startsWith_name_local (locale u : List Char) :
    startsWith (nameFlag ++ u) (localNameFlag locale) = false := by
  simp [nameFlag, localNameFlag, startsWith]

theorem startsWith_name_generic (locale u : List Char) :
    startsWith (nameFlag ++ u) (genericNameFlag locale) = false := by
  simp [nameFlag, genericNameFlag, startsWith]

/-- Lines in front of the first localized line do not matter: the loop returns the value of
the first line that starts with `Name[<locale>]=`. -/
theorem displayNameLoop_local (locale v : List Char) (post : List (List Char)) :
    ∀ (pre : List (List Char)) (d : List Char),
      (∀ l ∈ pre, startsWith l (localNameFlag locale) = false
        ∧ startsWith l (genericNameFlag locale) = false) →
      displayNameLoop locale (pre ++ (localNameFlag locale ++ v) :: post) d = v := by
  intro pre
  induction pre with
  | nil =>
    intro d _
    simp [displayNameLoop, startsWith_append]
  | cons l ls ih =>
    intro d h
    obtain ⟨h1, h2⟩ := h l (List.mem_cons_self _ _)
    have hrest := fun x hx => h x (List.mem_cons_of_mem _ hx)
    show displayNameLoop locale (l :: (ls ++ (localNameFlag locale ++ v) :: post)) d = v
    rw [displayNameLoop, h1, h2]
    simp only [Bool.false_eq_true, if_false]
    split
    · exact ih _ hrest
    · exact ih _ hrest

/-- Lines in front of the first localized line do not matter: the loop returns the value of
the first line that starts with `GenericName[<locale>]=`. -/
theorem displayNameLoop_generic (locale g : List Char) (post : List (List Char)) :
    ∀ (pre : List (List Char)) (d : List Char),
      (∀ l ∈ pre, startsWith l (localNameFlag locale) = false
        ∧ startsWith l (genericNameFlag locale) = false) →
      displayNameLoop locale (pre ++ (genericNameFlag locale ++ g) :: post) d = g := by
  intro pre
  induction pre with
  | nil =>
    intro d _
    simp [displayNameLoop, startsWith_append, startsWith_generic_local]
  | cons l ls ih =>
    intro d h
    obtain ⟨h1, h2⟩ := h l (List.mem_cons_self _ _)
    have hrest := fun x hx => h x (List.mem_cons_of_mem _ hx)
    show displayNameLoop locale (l :: (ls ++ (genericNameFlag locale ++ g) :: post)) d = g
    rw [displayNameLoop, h1, h2]
    simp only [Bool.false_eq_true, if_false]
    split
    · exact ih _ hrest
    · exact ih _ hrest

/-- The function on a descriptor that can be read, for a process other than `deepin-wm`. -/
theorem getDisplayNameFromName_lines (locale procName desktopFile : List Char)
    (ls : List (List Char)) (hproc : toLower procName ≠ "deepin-wm".toList)
    (hfile : desktopFile ≠ []) (hne : ls ≠ []) (hls : ∀ l ∈ ls, oneLine l) :
    getDisplayNameFromName locale procName desktopFile (some (joinLines ls))
      = some (displayNameLoop locale ls procName) := by
  have hlen : ¬ desktopFile.length = 0 := by
    intro h
    exact hfile (List.length_eq_zero.1 h)
  simp only [getDisplayNameFromName, if_neg hproc, if_neg hlen, readLines_joinLines ls hne hls]

theorem oneLine_append {a b : List Char} (ha : oneLine a) (hb : oneLine b) : oneLine (a ++ b) := by
  unfold oneLine at *
  simp [ha, hb]

theorem oneLine_localNameFlag {locale : List Char} (h : oneLine locale) :
    oneLine (localNameFlag locale) := by
  unfold localNameFlag
  exact oneLine_append (oneLine_append (by decide) h) (by decide)

theorem oneLine_genericNameFlag {locale : List Char} (h : oneLine locale) :
    oneLine (genericNameFlag locale) := by
  unfold genericNameFlag
  exact oneLine_append (oneLine_append (by decide) h) (by decide)

theorem nameBearing_false {locale l : List Char} (h : nameBearing locale l = false) :
    startsWith l (localNameFlag locale) = false ∧ startsWith l (genericNameFlag locale) = false := by
  simp only [nameBearing, Bool.or_eq_false_iff] at h
  exact ⟨h.1.1, h.1.2⟩


/-! ## C8: a localized name and a plain name -/

/-- C8. For a process other than `deepin-wm` and a descriptor whose only name-bearing lines
are one line `Name=u` and one line `Name[L]=v` for the system locale `L`, in either order and
among any other lines, the display name is `v`. -/
theorem getDisplayNameFromName_local_over_plain (locale procName desktopFile u v : List Char)
    (pre mid post : List (List Char))
    (hproc : toLower procName ≠ "deepin-wm".toList) (hfile : desktopFile ≠ [])
    (hloc : oneLine locale) (hu : oneLine u) (hv : oneLine v)
    (hother : ∀ l ∈ pre ++ mid ++ post, oneLine l ∧ nameBearing locale l = false) :
    getDisplayNameFromName locale procName desktopFile
        (some (joinLines (pre ++ (nameFlag ++ u) :: mid ++ (localNameFlag locale ++ v) :: post)))
      = some v ∧
    getDisplayNameFromName locale procName desktopFile
        (some (joinLines (pre ++ (localNameFlag locale ++ v) :: mid ++ (nameFlag ++ u) :: post)))
      = some v := by
  have hpre : ∀ l ∈ pre, oneLine l ∧ nameBearing locale l = false := fun l hl =>
    hother l (by simp [hl])
  have hmid : ∀ l ∈ mid, oneLine l ∧ nameBearing locale l = false := fun l hl =>
    hother l (by simp [hl])
  have hpost : ∀ l ∈ post, oneLine l ∧ nameBearing locale l = false := fun l hl =>
    hother l (by simp [hl])
  have hname : oneLine (nameFlag ++ u) := oneLine_append (by decide) hu
  have hlocal : oneLine (localNameFlag locale ++ v) :=
    oneLine_append (oneLine_localNameFlag hloc) hv
  constructor
  · rw [getDisplayNameFromName_lines locale procName desktopFile _ hproc hfile (by simp)]
    · rw [displayNameLoop_local locale v post (pre ++ (nameFlag ++ u) :: mid) procName]
      intro l hl
      rcases List.mem_append.1 hl with hl | hl
      · exact nameBearing_false (hpre l hl).2
      · rcases List.mem_cons.1 hl with rfl | hl
        · exact ⟨startsWith_name_local locale u, startsWith_name_generic locale u⟩
        · exact nameBearing_false (hmid l hl).2
    · intro l hl
      simp only [List.mem_append, List.mem_cons] at hl
      rcases hl with (hl | rfl | hl) | rfl | hl
      · exact (hpre l hl).1
      · exact hname
      · exact (hmid l hl).1
      · exact hlocal
      · exact (hpost l hl).1
  · rw [getDisplayNameFromName_lines locale procName desktopFile _ hproc hfile (by simp)]
    · have hshape : pre ++ (localNameFlag locale ++ v) :: mid ++ (nameFlag ++ u) :: post
          = pre ++ (localNameFlag locale ++ v) :: (mid ++ (nameFlag ++ u) :: post) := by simp
      rw [hshape, displayNameLoop_local locale v _ pre procName]
      intro l hl
      exact nameBearing_false (hpre l hl).2
    · intro l hl
      simp only [List.mem_append, List.mem_cons] at hl
      rcases hl with (hl | rfl | hl) | rfl | hl
      · exact (hpre l hl).1
      · exact hlocal
      · exact (hmid l hl).1
      · exact hname
      · exact (hpost l hl).1

/-- Witness of `getDisplayNameFromName_local_over_plain`: `Name=Foo` and `Name[en]=Bar` with
the locale `en` yield `Bar`, in both orders. -/
theorem getDisplayNameFromName_local_over_plain_witness :
    toLower "foo".toList ≠ "deepin-wm".toList ∧
    "/usr/share/applications/foo.desktop".toList ≠ [] ∧
    oneLine "en".toList ∧ oneLine "Foo".toList ∧ oneLine "Bar".toList ∧
    (∀ l ∈ ["[Desktop Entry]".toList] ++ ["Exec=foo".toList] ++ ["Icon=foo".toList, []],
      oneLine l ∧ nameBearing "en".toList l = false) ∧
    getDisplayNameFromName "en".toList "foo".toList "/usr/share/applications/foo.desktop".toList
        (some (joinLines (["[Desktop Entry]".toList] ++ (nameFlag ++ "Foo".toList)
          :: ["Exec=foo".toList] ++ (localNameFlag "en".toList ++ "Bar".toList)
          :: ["Icon=foo".toList, []])))
      = some "Bar".toList ∧
    getDisplayNameFromName "en".toList "foo".toList "/usr/share/applications/foo.desktop".toList
        (some (joinLines (["[Desktop Entry]".toList] ++ (localNameFlag "en".toList ++ "Bar".toList)
          :: ["Exec=foo".toList] ++ (nameFlag ++ "Foo".toList)
          :: ["Icon=foo".toList, []])))
      = some "Bar".toList :=
  ⟨by decide, by decide, by decide, by decide, by decide, by decide,
    getDisplayNameFromName_local_over_plain "en".toList "foo".toList
      "/usr/share/applications/foo.desktop".toList "Foo".toList "Bar".toList
      ["[Desktop Entry]".toList] ["Exec=foo".toList] ["Icon=foo".toList, []]
      (by decide) (by decide) (by decide) (by decide) (by decide) (by decide)⟩

/-! ## C9: a localized name and a localized generic name -/

/-- C9, as stated, fails: with the locale `en` and the line `GenericName[en]=Web Browser` in
front of the line `Name[en]=Firefox`, the loop stops at the first of the two and the display
name is `Web Browser`. -/
theorem getDisplayNameFromName_generic_first_counterexample :
    getDisplayNameFromName "en".toList "firefox".toList
        "/usr/share/applications/firefox.desktop".toList
        (some "[Desktop Entry]\nGenericName[en]=Web Browser\nName[en]=Firefox\n".toList)
      = some "Web Browser".toList ∧
    getDisplayNameFromName "en".toList "firefox".toList
        "/usr/share/applications/firefox.desktop".toList
        (some "[Desktop Entry]\nGenericName[en]=Web Browser\nName[en]=Firefox\n".toList)
      ≠ some "Firefox".toList := by
  decide

/-- C9, amended. For a process other than `deepin-wm` and a descriptor that contains both a
line `Name[L]=v` and a line `GenericName[L]=g` for the system locale `L`, with no line of
either of the two kinds in front of them, the display name is the value of the one of the two
lines that comes first in the file: `v` when the `Name[L]=` line is first, `g` when the
`GenericName[L]=` line is first. -/
theorem getDisplayNameFromName_first_localized (locale procName desktopFile v g : List Char)
    (pre mid post : List (List Char))
    (hproc : toLower procName ≠ "deepin-wm".toList) (hfile : desktopFile ≠ [])
    (hloc : oneLine locale) (hv : oneLine v) (hg : oneLine g)
    (hpre : ∀ l ∈ pre, oneLine l ∧ startsWith l (localNameFlag locale) = false
      ∧ startsWith l (genericNameFlag locale) = false)
    (hrest : ∀ l ∈ mid ++ post, oneLine l) :
    getDisplayNameFromName locale procName desktopFile
        (some (joinLines (pre ++ (localNameFlag locale ++ v) :: mid
          ++ (genericNameFlag locale ++ g) :: post)))
      = some v ∧
    getDisplayNameFromName locale procName desktopFile
        (some (joinLines (pre ++ (genericNameFlag locale ++ g) :: mid
          ++ (localNameFlag locale ++ v) :: post)))
      = some g := by
  have hmid : ∀ l ∈ mid, oneLine l := fun l hl => hrest l (by simp [hl])
  have hpost : ∀ l ∈ post, oneLine l := fun l hl => hrest l (by simp [hl])
  have hlocal : oneLine (localNameFlag locale ++ v) :=
    oneLine_append (oneLine_localNameFlag hloc) hv
  have hgeneric : oneLine (genericNameFlag locale ++ g) :=
    oneLine_append (oneLine_genericNameFlag hloc) hg
  constructor
  · rw [getDisplayNameFromName_lines locale procName desktopFile _ hproc hfile (by simp)]
    · have hshape : pre ++ (localNameFlag locale ++ v) :: mid
            ++ (genericNameFlag locale ++ g) :: post
          = pre ++ (localNameFlag locale ++ v) :: (mid ++ (genericNameFlag locale ++ g) :: post) := by
        simp
      rw [hshape, displayNameLoop_local locale v _ pre procName (fun l hl => (hpre l hl).2)]
    · intro l hl
      simp only [List.mem_append, List.mem_cons] at hl
      rcases hl with (hl | rfl | hl) | rfl | hl
      · exact (hpre l hl).1
      · exact hlocal
      · exact hmid l hl
      · exact hgeneric
      · exact hpost l hl
  · rw [getDisplayNameFromName_lines locale procName desktopFile _ hproc hfile (by simp)]
    · have hshape : pre ++ (genericNameFlag locale ++ g) :: mid
            ++ (localNameFlag locale ++ v) :: post
          = pre ++ (genericNameFlag locale ++ g) :: (mid ++ (localNameFlag locale ++ v) :: post) := by
        simp
      rw [hshape, displayNameLoop_generic locale g _ pre procName (fun l hl => (hpre l hl).2)]
    · intro l hl
      simp only [List.mem_append, List.mem_cons] at hl
      rcases hl with (hl | rfl | hl) | rfl | hl
      · exact (hpre l hl).1
      · exact hgeneric
      · exact hmid l hl
      · exact hlocal
      · exact hpost l hl

/-- Witness of `getDisplayNameFromName_first_localized`: the lines `Name[en]=Firefox` and
`GenericName[en]=Web Browser` after `Name=Firefox Web Browser`, in both orders. -/
theorem getDisplayNameFromName_first_localized_witness :
    toLower "firefox".toList ≠ "deepin-wm".toList ∧
    "/usr/share/applications/firefox.desktop".toList ≠ [] ∧
    oneLine "en".toList ∧ oneLine "Firefox".toList ∧ oneLine "Web Browser".toList ∧
    (∀ l ∈ ["[Desktop Entry]".toList, "Name=Firefox Web Browser".toList],
      oneLine l ∧ startsWith l (localNameFlag "en".toList) = false
        ∧ startsWith l (genericNameFlag "en".toList) = false) ∧
    (∀ l ∈ ["Exec=firefox".toList] ++ ["Icon=firefox".toList, []], oneLine l) ∧
    getDisplayNameFromName "en".toList "firefox".toList
        "/usr/share/applications/firefox.desktop".toList
        (some (joinLines (["[Desktop Entry]".toList, "Name=Firefox Web Browser".toList]
          ++ (localNameFlag "en".toList ++ "Firefox".toList) :: ["Exec=firefox".toList]
          ++ (genericNameFlag "en".toList ++ "Web Browser".toList)
          :: ["Icon=firefox".toList, []])))
      = some "Firefox".toList ∧
    getDisplayNameFromName "en".toList "firefox".toList
        "/usr/share/applications/firefox.desktop".toList
        (some (joinLines (["[Desktop Entry]".toList, "Name=Firefox Web Browser".toList]
          ++ (genericNameFlag "en".toList ++ "Web Browser".toList) :: ["Exec=firefox".toList]
          ++ (localNameFlag "en".toList ++ "Firefox".toList)
          :: ["Icon=firefox".toList, []])))
      = some "Web Browser".toList :=
  ⟨by decide, by decide, by decide, by decide, by decide, by decide, by decide,
    getDisplayNameFromName_first_localized "en".toList "firefox".toList
      "/usr/share/applications/firefox.desktop".toList "Firefox".toList "Web Browser".toList
      ["[Desktop Entry]".toList, "Name=Firefox Web Browser".toList] ["Exec=firefox".toList]
      ["Icon=firefox".toList, []]
      (by decide) (by decide) (by decide) (by decide) (by decide) (by decide) (by decide)⟩

/-! ## C10: several plain names -/

/-- C10 (the code departs from it). With the locale `en_US` and a descriptor that has no
localized line, the main entry `Name=Firefox` and a desktop-action section with
`Name=New Window`, every `Name=` line replaces the value kept so far: the display name is
`New Window`, the value of the last `Name=` line, and not `Firefox`, the value of the first. -/
theorem getDisplayNameFromName_last_plain_name :
    getDisplayNameFromName "en_US".toList "firefox".toList
        "/usr/share/applications/firefox.desktop".toList
        (some ("[Desktop Entry]\nName=Firefox\nExec=firefox\nActions=new-window;\n\n"
          ++ "[Desktop Action new-window]\nName=New Window\nExec=firefox --new-window\n").toList)
      = some "New Window".toList ∧
    getDisplayNameFromName "en_US".toList "firefox".toList
        "/usr/share/applications/firefox.desktop".toList
        (some ("[Desktop Entry]\nName=Firefox\nExec=firefox\nActions=new-window;\n\n"
          ++ "[Desktop Action new-window]\nName=New Window\nExec=firefox --new-window\n").toList)
      ≠ some "Firefox".toList := by
  decide

/-! ## Runs of characters -/

theorem splitRuns_of_not_mem (c : Char) :
    ∀ l : List Char, c ∉ l → splitRuns c l = [l] := by
  intro l
  induction l with
  | nil => intro _; rfl
  | cons ch l ih =>
    intro h
    have hch : ch ≠ c := fun e => h (e ▸ List.mem_cons_self _ _)
    have hl : c ∉ l := fun hm => h (List.mem_cons_of_mem _ hm)
    rw [splitRuns, if_neg hch, ih hl]

theorem splitRuns_append_sep (c : Char) (rest : List Char) :
    ∀ l : List Char, c ∉ l → splitRuns c (l ++ c :: rest) = l :: splitRuns c rest := by
  intro l
  induction l with
  | nil => intro _; simp [splitRuns]
  | cons ch l ih =>
    intro h
    have hch : ch ≠ c := fun e => h (e ▸ List.mem_cons_self _ _)
    have hl : c ∉ l := fun hm => h (List.mem_cons_of_mem _ hm)
    show splitRuns c (ch :: (l ++ c :: rest)) = (ch :: l) :: splitRuns c rest
    rw [splitRuns, if_neg hch, ih hl]

theorem splitRuns_not_mem (c : Char) :
    ∀ (s : List Char), ∀ r ∈ splitRuns c s, c ∉ r := by
  intro s
  induction s with
  | nil =>
    intro r hr
    simp only [splitRuns, List.mem_singleton] at hr
    simp [hr]
  | cons ch s ih =>
    intro r hr
    by_cases hch : ch = c
    · rw [splitRuns, if_pos hch] at hr
      rcases List.mem_cons.1 hr with rfl | hr
      · simp
      · exact ih r hr
    · rw [splitRuns, if_neg hch] at hr
      cases hs : splitRuns c s with
      | nil =>
        rw [hs] at hr
        simp only [List.mem_singleton] at hr
        subst hr
        intro hm
        simp only [List.mem_singleton] at hm
        exact hch hm.symm
      | cons r0 rs =>
        rw [hs] at hr ih
        rcases List.mem_cons.1 hr with rfl | hr
        · intro hm
          rcases List.mem_cons.1 hm with e | hm
          · exact hch e.symm
          · exact ih r0 (List.mem_cons_self _ _) hm
        · exact ih r (List.mem_cons_of_mem _ hr)

theorem splitRuns_flatten (c : Char) :
    ∀ s : List Char, (splitRuns c s).flatten = s.filter fun ch => decide (ch ≠ c) := by
  intro s
  induction s with
  | nil => rfl
  | cons ch s ih =>
    by_cases hch : ch = c
    · have hf : (ch :: s).filter (fun ch => decide (ch ≠ c))
          = s.filter (fun ch => decide (ch ≠ c)) := by simp [hch]
      rw [splitRuns, if_pos hch, hf, ← ih]
      rfl
    · have hf : (ch :: s).filter (fun ch => decide (ch ≠ c))
          = ch :: s.filter (fun ch => decide (ch ≠ c)) := by simp [hch]
      rw [splitRuns, if_neg hch, hf, ← ih]
      cases splitRuns c s with
      | nil => rfl
      | cons r0 rs => rfl

theorem flatten_filter_nonempty :
    ∀ l : List (List Char), (l.filter fun r => decide (r ≠ [])).flatten = l.flatten := by
  intro l
  induction l with
  | nil => rfl
  | cons r l ih =>
    by_cases hr : r = []
    · have hf : (r :: l).filter (fun r => decide (r ≠ []))
          = l.filter (fun r => decide (r ≠ [])) := by simp [hr]
      rw [hf, ih, hr]
      rfl
    · have hf : (r :: l).filter (fun r => decide (r ≠ []))
          = r :: l.filter (fun r => decide (r ≠ [])) := by simp [hr]
      rw [hf]
      show r ++ _ = r ++ _
      rw [ih]

theorem explodeLoop_eq (c : Char) :
    ∀ (s buff : List Char) (v : List (List Char)), c ∉ buff →
      explodeLoop c s buff v = v ++ maximalRuns (buff ++ s) c := by
  intro s
  induction s with
  | nil =>
    intro buff v hb
    by_cases hne : buff = []
    · simp [explodeLoop, maximalRuns, splitRuns, hne]
    · simp [explodeLoop, maximalRuns, splitRuns_of_not_mem c buff hb, hne]
  | cons n s ih =>
    intro buff v hb
    by_cases hn : n = c
    · subst hn
      by_cases hne : buff = []
      · subst hne
        have h1 : explodeLoop n (n :: s) [] v = explodeLoop n s [] v := by
          simp [explodeLoop]
        rw [h1, ih [] v (by simp)]
        simp [maximalRuns, splitRuns]
      · have h1 : explodeLoop n (n :: s) buff v = explodeLoop n s [] (v ++ [buff]) := by
          simp [explodeLoop, hne]
        rw [h1, ih [] (v ++ [buff]) (by simp)]
        simp [maximalRuns, splitRuns_append_sep n s buff hb, hne]
    · have h1 : explodeLoop c (n :: s) buff v = explodeLoop c s (buff ++ [n]) v := by
        simp [explodeLoop, hn]
      have hb2 : c ∉ buff ++ [n] := by
        simp only [List.mem_append, List.mem_singleton, not_or]
        exact ⟨hb, fun e => hn e.symm⟩
      rw [h1, ih (buff ++ [n]) v hb2]
      simp

/-! ## C14: the tokens of `explode` -/

/-- C14. For every string `s` and separator `c`, `explode(s, c)` is the list of the maximal
non-empty runs of characters of `s` different from `c`, in order: no token is empty, no token
contains `c`, the concatenation of the tokens is `s` with every occurrence of `c` removed, and
the result is empty exactly when every character of `s` is `c`. -/
theorem explode_maximalRuns (s : List Char) (c : Char) :
    explode s c = maximalRuns s c ∧
    (∀ t ∈ explode s c, t ≠ []) ∧
    (∀ t ∈ explode s c, c ∉ t) ∧
    (explode s c).flatten = s.filter (fun ch => decide (ch ≠ c)) ∧
    (explode s c = [] ↔ ∀ ch ∈ s, ch = c) := by
  have heq : explode s c = maximalRuns s c := by
    have h := explodeLoop_eq c s [] [] (by simp)
    simpa [explode] using h
  have hne : ∀ t ∈ explode s c, t ≠ [] := by
    intro t ht
    rw [heq, maximalRuns, List.mem_filter] at ht
    simpa using ht.2
  have hflat : (explode s c).flatten = s.filter (fun ch => decide (ch ≠ c)) := by
    rw [heq, maximalRuns, flatten_filter_nonempty, splitRuns_flatten]
  refine ⟨heq, hne, ?_, hflat, ?_⟩
  · intro t ht
    rw [heq, maximalRuns, List.mem_filter] at ht
    exact splitRuns_not_mem c s t ht.1
  · constructor
    · intro h ch hch
      rw [h] at hflat
      by_contra hcc
      have hm : ch ∈ s.filter (fun ch => decide (ch ≠ c)) := by
        rw [List.mem_filter]
        exact ⟨hch, by simpa using hcc⟩
      rw [← hflat] at hm
      simp at hm
    · intro h
      have hnil : s.filter (fun ch => decide (ch ≠ c)) = [] := by
        rw [List.filter_eq_nil_iff]
        intro ch hch
        simp [h ch hch]
      rw [hnil] at hflat
      cases hx : explode s c with
      | nil => rfl
      | cons t ts =>
        exfalso
        have ht : t ∈ explode s c := by rw [hx]; exact List.mem_cons_self _ _
        have htne := hne t ht
        rw [hx] at hflat
        simp at hflat
        exact htne hflat.1

/-! ## C15: the first token -/

/-- C15 (the code departs from it). A process started with an empty `argv[0]` has the cmdline
file `\0`: the command line is one space, not empty, so the test `cmdline.size()<1` lets it
pass, `explode` returns no token at all, and the code reads `args[0]` of an empty vector. The
same holds for every command line made of spaces only. -/
theorem getProcessNameFromCmdLine_no_token :
    getProcessCmdline (some "\x00".toList) = " ".toList ∧
    explode (replace (getProcessCmdline (some "\x00".toList)) '\\' '/') ' ' = [] ∧
    getProcessNameFromCmdLine (some "\x00".toList) = none ∧
    getProcessNameFromCmdLine (some "   ".toList) = none := by
  decide

/-! ## C11: the two phases of the descriptor search -/

/-- C11 (the code departs from it). The body of each loop looks at the current entry before it
calls `next()`, and both loops run on the same iterator. So the last entry of the listing is
never looked at: a listing that ends with `firefox.desktop` yields the empty path for
`firefox`. And when the first loop finds nothing it leaves the iterator at its end, so the
second loop does not run at all: with `firefox-esr.desktop` in the listing and no file
`firefox.desktop`, the result is the empty path, although a `.desktop` file whose name contains
`firefox` exists. A first-phase match that is not the last entry is returned. -/
theorem getDesktopFileFromName_phases :
    getDesktopFileFromName []
        [⟨".".toList, "/usr/share/applications/.".toList⟩,
         ⟨"..".toList, "/usr/share/applications/..".toList⟩,
         ⟨"gimp.desktop".toList, "/usr/share/applications/gimp.desktop".toList⟩,
         ⟨"firefox.desktop".toList, "/usr/share/applications/firefox.desktop".toList⟩]
        "firefox".toList = [] ∧
    getDesktopFileFromName []
        [⟨".".toList, "/usr/share/applications/.".toList⟩,
         ⟨"..".toList, "/usr/share/applications/..".toList⟩,
         ⟨"firefox-esr.desktop".toList, "/usr/share/applications/firefox-esr.desktop".toList⟩,
         ⟨"gimp.desktop".toList, "/usr/share/applications/gimp.desktop".toList⟩]
        "firefox".toList = [] ∧
    getDesktopFileFromName []
        [⟨".".toList, "/usr/share/applications/.".toList⟩,
         ⟨"..".toList, "/usr/share/applications/..".toList⟩,
         ⟨"firefox.desktop".toList, "/usr/share/applications/firefox.desktop".toList⟩,
         ⟨"gimp.desktop".toList, "/usr/share/applications/gimp.desktop".toList⟩]
        "firefox".toList = "/usr/share/applications/firefox.desktop".toList := by
  decide

/-! ## The icon cache -/

theorem findEntry_setEntry_self (key : List Char) (v : QPixmap) :
    ∀ l : List (List Char × QPixmap), findEntry key (setEntry key v l) = some v := by
  intro l
  induction l with
  | nil => simp [setEntry, findEntry]
  | cons e rest ih =>
    by_cases h : e.1 = key
    · simp [setEntry, findEntry, h]
    · simp [setEntry, findEntry, h, ih]

theorem findEntry_setEntry_other (key other : List Char) (v : QPixmap) (h : other ≠ key) :
    ∀ l : List (List Char × QPixmap), findEntry other (setEntry key v l) = findEntry other l := by
  have hko : ¬ key = other := fun e => h e.symm
  intro l
  induction l with
  | nil => simp [setEntry, findEntry, hko]
  | cons e rest ih =>
    by_cases hk : e.1 = key
    · have ho : ¬ e.1 = other := fun e2 => h (e2.symm.trans hk)
      rw [setEntry, if_pos hk, findEntry, findEntry, if_neg ho]
      simp [hko]
    · rw [setEntry, if_neg hk, findEntry, findEntry, ih]

/-- A call on a cache that holds the name returns the value held, opens no file and leaves the
cache as it is. -/
theorem getProcessIconFromName_hit (cache : QMap) (procName desktopFile : List Char)
    (descriptor : Option (List Char)) (iconSize : Int) (h : cache.contains procName = true) :
    getProcessIconFromName procName desktopFile descriptor (some cache) iconSize
      = some ⟨cache.value procName, some cache, []⟩ := by
  simp [getProcessIconFromName, h]

theorem QMap.contains_assign (m : QMap) (key : List Char) (v : QPixmap) :
    (m.assign key v).contains key = true := by
  simp [QMap.contains, QMap.assign, findEntry_setEntry_self]

theorem QMap.value_assign (m : QMap) (key : List Char) (v : QPixmap) :
    (m.assign key v).value key = v := by
  simp [QMap.value, QMap.assign, findEntry_setEntry_self]

/-- A call that can return does, and then the cache holds an entry for the name, every later
call with the same name (whatever the descriptor path, the descriptor and the icon size) returns
the same pixmap, opens no descriptor and leaves the cache unchanged, and the entries of the other
names are those of the cache before the first call. The call can return when the cache holds
the name, or the descriptor path is empty, or the descriptor file can be opened. -/
theorem getProcessIconFromName_returns (cache : QMap) (procName desktopFile : List Char)
    (descriptor : Option (List Char)) (iconSize : Int)
    (h : cache.contains procName = true ∨ desktopFile = [] ∨ descriptor ≠ none) :
    ∃ (pixmap : QPixmap) (cache1 : QMap) (opened : List (List Char)),
      getProcessIconFromName procName desktopFile descriptor (some cache) iconSize
        = some ⟨pixmap, some cache1, opened⟩ ∧
      cache1.contains procName = true ∧
      (∀ (desktopFile2 : List Char) (descriptor2 : Option (List Char)) (iconSize2 : Int),
        getProcessIconFromName procName desktopFile2 descriptor2 (some cache1) iconSize2
          = some ⟨pixmap, some cache1, []⟩) ∧
      (∀ other : List Char, other ≠ procName →
        cache1.contains other = cache.contains other ∧ cache1.value other = cache.value other) := by
  have hother : ∀ (v : QPixmap) (other : List Char), other ≠ procName →
      (cache.assign procName v).contains other = cache.contains other
        ∧ (cache.assign procName v).value other = cache.value other := by
    intro v other ho
    simp [QMap.contains, QMap.value, QMap.assign, findEntry_setEntry_other procName other v ho]
  have hstored : ∀ (v : QPixmap) (desktopFile2 : List Char) (descriptor2 : Option (List Char))
      (iconSize2 : Int),
      getProcessIconFromName procName desktopFile2 descriptor2 (some (cache.assign procName v))
        iconSize2 = some ⟨v, some (cache.assign procName v), []⟩ := by
    intro v desktopFile2 descriptor2 iconSize2
    rw [getProcessIconFromName_hit _ _ _ _ _ (QMap.contains_assign cache procName v),
      QMap.value_assign]
  by_cases hc : cache.contains procName = true
  · refine ⟨cache.value procName, cache, [], getProcessIconFromName_hit _ _ _ _ _ hc, hc, ?_, ?_⟩
    · intro desktopFile2 descriptor2 iconSize2
      exact getProcessIconFromName_hit _ _ _ _ _ hc
    · intro other _
      exact ⟨rfl, rfl⟩
  · have hc2 : cache.contains procName = false := by simpa using hc
    by_cases hlen : desktopFile.length = 0
    · refine ⟨(QIcon.fromTheme "application-x-executable".toList).pixmap iconSize iconSize,
        cache.assign procName _, [], ?_, QMap.contains_assign _ _ _, hstored _, hother _⟩
      simp [getProcessIconFromName, hc2, hlen, storeIcon]
    · cases descriptor with
      | none =>
        rcases h with h | h | h
        · exact absurd h hc
        · exact absurd (by simp [h]) hlen
        · exact absurd rfl h
      | some content =>
        refine ⟨(iconLoop (QIcon.fromTheme "application-x-executable".toList)
            (readLines content) (QIcon.fromTheme "application-x-executable".toList)).pixmap
            iconSize iconSize,
          cache.assign procName _, [desktopFile], ?_, QMap.contains_assign _ _ _,
          hstored _, hother _⟩
        simp [getProcessIconFromName, hc2, hlen, storeIcon]

/-- A call on a name that the cache does not hold, with a descriptor path that is not empty and
a descriptor file that cannot be opened, does not return. -/
theorem getProcessIconFromName_none (cache : QMap) (procName desktopFile : List Char)
    (iconSize : Int) (hc : cache.contains procName = false) (hd : desktopFile ≠ []) :
    getProcessIconFromName procName desktopFile none (some cache) iconSize = none := by
  have hlen : ¬ desktopFile.length = 0 := fun h => hd (List.length_eq_zero.1 h)
  simp [getProcessIconFromName, hc, hlen]

/-! ## C12: the icon cache -/

/-- C12 (the code departs from it). The cache is not null and does not hold the name `foo`, and
the descriptor path of `foo` names a file that cannot be opened. The stream fails to open,
`in.eof()` never holds, every `getline` fails, and the loop `while(!in.eof())` does not end: the
call does not return, with an empty cache as with a cache that holds another name, so no entry
for `foo` is ever stored. -/
theorem getProcessIconFromName_unopened_descriptor :
    getProcessIconFromName "foo".toList "/usr/share/applications/foo.desktop".toList none
      (some ⟨[]⟩) 24 = none ∧
    getProcessIconFromName "foo".toList "/usr/share/applications/foo.desktop".toList none
      (some ⟨[("bar".toList, QPixmap.null)]⟩) 24 = none := by
  decide

/-! ## Lines of an io file -/

theorem matchLiteral_append (x : List Char) :
    ∀ p : List Char, matchLiteral p (p ++ x) = some x := by
  intro p
  induction p with
  | nil => cases x <;> rfl
  | cons c cs ih => simp [matchLiteral, ih]

theorem matchLiteral_of_startsWith_false :
    ∀ (p s : List Char), startsWith s p = false → matchLiteral p s = none := by
  intro p
  induction p with
  | nil => intro s h; cases s <;> simp [startsWith] at h
  | cons c cs ih =>
    intro s h
    cases s with
    | nil => rfl
    | cons d ds =>
      by_cases hcd : c = d
      · subst hcd
        have h2 : startsWith ds cs = false := by simpa [startsWith] using h
        simp [matchLiteral, ih ds h2]
      · simp [matchLiteral, hcd]

theorem startsWith_of_cString :
    ∀ (p t : List Char), startsWith (cString t) p = true → startsWith t p = true := by
  intro p
  induction p with
  | nil => intro t _; cases t <;> rfl
  | cons c cs ih =>
    intro t h
    cases t with
    | nil => simp [cString, startsWith] at h
    | cons d ds =>
      by_cases hd : d = '\x00'
      · simp [cString, hd, startsWith] at h
      · rw [cString, if_neg hd] at h
        simp only [startsWith, Bool.and_eq_true, decide_eq_true_eq] at h ⊢
        exact ⟨h.1, ih ds h.2⟩

theorem scanDigits_all :
    ∀ (ds : List Char) (w x : Nat), ds.length ≤ w → (∀ ch ∈ ds, isdigit ch = true) →
      scanDigits w ds (some x)
        = (some (ds.foldl (fun acc ch => acc * 10 + digitValue ch) x), []) := by
  intro ds
  induction ds with
  | nil =>
    intro w x _ _
    cases w <;> rfl
  | cons d ds ih =>
    intro w x hw hd
    cases w with
    | zero => simp at hw
    | succ w =>
      have hd1 : isdigit d = true := hd d (List.mem_cons_self _ _)
      have hw1 : ds.length ≤ w := by simpa using hw
      simp only [scanDigits, hd1, if_true, Option.getD_some, List.foldl_cons]
      exact ih w _ hw1 (fun ch hch => hd ch (List.mem_cons_of_mem _ hch))

theorem scanUL_digits (ds : List Char) (hne : ds ≠ []) (hdig : ∀ ch ∈ ds, isdigit ch = true)
    (hval : decimalValue ds < ULL) : scanUL (' ' :: ds) = some (decimalValue ds) := by
  cases ds with
  | nil => exact absurd rfl hne
  | cons d ds =>
    have hd1 : isdigit d = true := hdig d (List.mem_cons_self _ _)
    obtain ⟨hsp, hminus, hplus, -, -⟩ := isdigit_facts hd1
    have hs : skipSpace (' ' :: d :: ds) = d :: ds := by
      rw [skipSpace, if_pos (by decide), skipSpace, hsp]
      simp
    have hscan := scanDigits_all ds ds.length (0 * 10 + digitValue d) (le_refl _)
      (fun ch hch => hdig ch (List.mem_cons_of_mem _ hch))
    have hv : List.foldl (fun acc ch => acc * 10 + digitValue ch) (0 * 10 + digitValue d) ds
        < ULL := hval
    simp only [scanUL, hs, if_neg hminus, if_neg hplus, scanDigits, hd1, if_true,
      Option.getD_none, hscan, if_pos hv]
    rfl

theorem label_plain (f : IoField) : ∀ ch ∈ f.label, ch ≠ '\n' ∧ ch ≠ '\x00' := by
  cases f <;> decide

theorem label_exclusive (f g : IoField) (x : List Char) (h : g ≠ f) :
    startsWith (f.label ++ x) g.label = false := by
  cases f <;> cases g <;> first
    | exact absurd rfl h
    | simp [IoField.label, startsWith]

theorem mem_all (f : IoField) : f ∈ IoField.all := by
  cases f <;> decide

/-- What each `sscanf` test of the loop makes of a well-formed line. -/
theorem scanLabelled_text (l : IoLine) (hl : l.wellFormed) (g : IoField) :
    scanLabelled g.label l.text = l.valueFor g := by
  cases l with
  | counter f digits =>
    obtain ⟨hne, hdig, hval⟩ := hl
    have hplain : ∀ ch ∈ f.label ++ ' ' :: digits, ch ≠ '\x00' := by
      intro ch hch
      rcases List.mem_append.1 hch with h | h
      · exact (label_plain f ch h).2
      · rcases List.mem_cons.1 h with rfl | h
        · decide
        · exact (isdigit_facts (hdig ch h)).2.2.2.2
    have hc : cString (f.label ++ ' ' :: digits) = f.label ++ ' ' :: digits := by
      have := cString_append [] (f.label ++ ' ' :: digits) hplain
      simpa [cString] using this
    by_cases hfg : f = g
    · subst hfg
      simp only [scanLabelled, IoLine.text, IoLine.valueFor, hc, matchLiteral_append, if_true,
        scanUL_digits digits hne hdig hval]
    · have hg : g ≠ f := fun e => hfg e.symm
      simp only [scanLabelled, IoLine.text, IoLine.valueFor, hc,
        matchLiteral_of_startsWith_false _ _ (label_exclusive f g _ hg), if_neg hfg]
  | other text =>
    obtain ⟨-, hst⟩ := hl
    have h1 : startsWith (cString text) g.label = false := by
      cases hx : startsWith (cString text) g.label with
      | false => rfl
      | true =>
        have := startsWith_of_cString _ _ hx
        rw [hst g (mem_all g)] at this
        exact absurd this (by decide)
    simp only [scanLabelled, IoLine.text, IoLine.valueFor,
      matchLiteral_of_startsWith_false _ _ h1]

/-- The effect of the body of the loop on each counter, for a well-formed line. -/
theorem scanIoLine_fieldOf (l : IoLine) (hl : l.wellFormed) (io : ProcPidIO) (f : IoField) :
    fieldOf (scanIoLine l.text io) f = (l.valueFor f).getD (fieldOf io f) := by
  have h1 : scanLabelled "rchar:".toList l.text = l.valueFor .rchar :=
    scanLabelled_text l hl .rchar
  have h2 : scanLabelled "wchar:".toList l.text = l.valueFor .wchar :=
    scanLabelled_text l hl .wchar
  have h3 : scanLabelled "syscr:".toList l.text = l.valueFor .syscr :=
    scanLabelled_text l hl .syscr
  have h4 : scanLabelled "syscw:".toList l.text = l.valueFor .syscw :=
    scanLabelled_text l hl .syscw
  have h5 : scanLabelled "read_bytes:".toList l.text = l.valueFor .read_bytes :=
    scanLabelled_text l hl .read_bytes
  have h6 : scanLabelled "write_bytes:".toList l.text = l.valueFor .write_bytes :=
    scanLabelled_text l hl .write_bytes
  have h7 : scanLabelled "cancelled_write_bytes:".toList l.text
      = l.valueFor .cancelled_write_bytes :=
    scanLabelled_text l hl .cancelled_write_bytes
  unfold scanIoLine
  rw [h1, h2, h3, h4, h5, h6, h7]
  cases l with
  | counter g digits =>
    cases g <;> cases f <;> simp [IoLine.valueFor, fieldOf]
  | other text =>
    cases f <;> simp [IoLine.valueFor, fieldOf]

theorem foldl_scanIoLine (f : IoField) :
    ∀ (lines : List IoLine) (io : ProcPidIO), (∀ l ∈ lines, l.wellFormed) →
      fieldOf ((lines.map IoLine.text).foldl (fun acc s => scanIoLine s acc) io) f
        = lastValue f lines (fieldOf io f) := by
  intro lines
  induction lines with
  | nil => intro io _; rfl
  | cons l more ih =>
    intro io h
    have hl := h l (List.mem_cons_self _ _)
    have hmore := fun x hx => h x (List.mem_cons_of_mem _ hx)
    simp only [List.map_cons, List.foldl_cons]
    rw [ih _ hmore, scanIoLine_fieldOf l hl io f]
    rfl

theorem oneLine_text (l : IoLine) (hl : l.wellFormed) : oneLine l.text := by
  cases l with
  | counter f digits =>
    obtain ⟨-, hdig, -⟩ := hl
    intro hm
    rcases List.mem_append.1 hm with h | h
    · exact (label_plain f _ h).1 rfl
    · rcases List.mem_cons.1 h with h | h
      · exact absurd h (by decide)
      · exact (isdigit_facts (hdig _ h)).2.2.2.1 rfl
  | other text => exact hl.1


/-! ## C13: the counters read from the io file -/

/-- C13, as stated, fails: a line that is not of the form `<field>: <n>` can change a counter.
After the line `rchar: 5`, the line `rchar: -1` sets `rchar` to `2 ^ 64 - 1`, the line
`rchar:7` (no space) sets it to `7` and the line `rchar: 12 kB` sets it to `12`; in each case
the last line of the form `rchar: <n>` has the value `5`. -/
theorem getProcPidIO_unexpected_line_counterexample :
    ( getProcPidIO (some "rchar: 5\nrchar: -1\n".toList) ⟨0, 0, 0, 0, 0, 0, 0⟩).2.rchar
      = 18446744073709551615 ∧
    ( getProcPidIO (some "rchar: 5\nrchar:7\n".toList) ⟨0, 0, 0, 0, 0, 0, 0⟩).2.rchar = 7 ∧
    ( getProcPidIO (some "rchar: 5\nrchar: 12 kB\n".toList) ⟨0, 0, 0, 0, 0, 0, 0⟩).2.rchar
      = 12 := by
  decide

/-- C13, amended. For every initial record and every io file that can be read and whose lines
are each either a line `<field>: <n>` for one of the seven fields, with `n` a decimal number
below `2 ^ 64`, or a line that starts with the label `<field>:` of none of the seven fields,
`getProcPidIO` returns true and each of the seven counters ends up equal to the value of the
last line `<field>: <n>` of its field, and to its initial value when the file has no such line.
When the file cannot be opened it returns false and the record is unchanged. -/
theorem getProcPidIO_frame (io : ProcPidIO) (lines : List IoLine) (hne : lines ≠ [])
    (hwf : ∀ l ∈ lines, l.wellFormed) :
    ( getProcPidIO (some (joinLines (lines.map IoLine.text))) io).1 = true ∧
    (∀ f : IoField,
      fieldOf ( getProcPidIO (some (joinLines (lines.map IoLine.text))) io).2 f
        = lastValue f lines (fieldOf io f)) ∧
    getProcPidIO none io = (false, io) := by
  have hread : readLines (joinLines (lines.map IoLine.text)) = lines.map IoLine.text := by
    apply readLines_joinLines
    · intro h
      exact hne (List.map_eq_nil_iff.1 h)
    · intro t ht
      obtain ⟨l, hl, rfl⟩ := List.mem_map.1 ht
      exact oneLine_text l (hwf l hl)
  refine ⟨rfl, ?_, rfl⟩
  intro f
  show fieldOf ((readLines (joinLines (lines.map IoLine.text))).foldl
    (fun acc s => scanIoLine s acc) io) f = _
  rw [hread]
  exact foldl_scanIoLine f lines io hwf

/-- Witness of `getProcPidIO_frame`: an io file with two `rchar` lines, a line of an unknown
field and an empty last line, read into a record that holds `1` in every counter. -/
theorem getProcPidIO_frame_witness :
    [IoLine.counter .rchar "5".toList, IoLine.counter .write_bytes "4096".toList,
      IoLine.other "threads: 3".toList, IoLine.counter .rchar "70".toList, IoLine.other []]
      ≠ [] ∧
    (∀ l ∈ [IoLine.counter .rchar "5".toList, IoLine.counter .write_bytes "4096".toList,
      IoLine.other "threads: 3".toList, IoLine.counter .rchar "70".toList, IoLine.other []],
      l.wellFormed) ∧
    joinLines ([IoLine.counter .rchar "5".toList, IoLine.counter .write_bytes "4096".toList,
      IoLine.other "threads: 3".toList, IoLine.counter .rchar "70".toList,
      IoLine.other []].map IoLine.text)
      = "rchar: 5\nwrite_bytes: 4096\nthreads: 3\nrchar: 70\n".toList ∧
    ( getProcPidIO (some (joinLines ([IoLine.counter .rchar "5".toList,
      IoLine.counter .write_bytes "4096".toList, IoLine.other "threads: 3".toList,
      IoLine.counter .rchar "70".toList, IoLine.other []].map IoLine.text)))
      ⟨1, 1, 1, 1, 1, 1, 1⟩).1 = true ∧
    (∀ f : IoField,
      fieldOf ( getProcPidIO (some (joinLines ([IoLine.counter .rchar "5".toList,
        IoLine.counter .write_bytes "4096".toList, IoLine.other "threads: 3".toList,
        IoLine.counter .rchar "70".toList, IoLine.other []].map IoLine.text)))
        ⟨1, 1, 1, 1, 1, 1, 1⟩).2 f
        = lastValue f [IoLine.counter .rchar "5".toList,
          IoLine.counter .write_bytes "4096".toList, IoLine.other "threads: 3".toList,
          IoLine.counter .rchar "70".toList, IoLine.other []]
          (fieldOf ⟨1, 1, 1, 1, 1, 1, 1⟩ f)) ∧
    getProcPidIO none ⟨1, 1, 1, 1, 1, 1, 1⟩ = (false, ⟨1, 1, 1, 1, 1, 1, 1⟩) :=
  ⟨by decide, by decide, by decide,
    getProcPidIO_frame ⟨1, 1, 1, 1, 1, 1, 1⟩ _ (by decide) (by decide)⟩

end Utils
